import Mathlib

/-!
# ship-test: the pack allocator of `ship/ship.go`

A shallow embedding of `CalculatePacksToShip` and a verification of its
specification.

* Go's `int` is modelled by `Int`; every arithmetic operation of the source
  is followed by `wrapInt`, the two's-complement wrap-around of a 64-bit
  `int`.
* A Go `map[int]int` is modelled by `GoMap`, the list of its entries in
  strictly increasing key order, so that two maps are equal exactly when the
  lists are.
* A run-time panic (integer division by zero, index out of range) is a
  `Fault`; the function returns `Except Fault _`.
* `sort.Sort` sorts the caller's slice in place, so the embedding returns,
  next to the plan, the contents of the caller's slice after the call.
-/

namespace Ship

/-! ## Machine integers -/

/-- Largest value of a 64-bit Go `int`, `math.MaxInt64`. -/
def maxInt : Int := 9223372036854775807

/-- Two's-complement wrap-around of a 64-bit Go `int`. -/
def wrapInt (x : Int) : Int :=
  (x + 9223372036854775808) % 18446744073709551616 - 9223372036854775808

/-- Run-time panics the function can raise. -/
inductive Fault where
  | divideByZero
  | indexOutOfRange
  deriving DecidableEq, Repr

/-! ## Go maps -/

/-- A `map[int]int`: its entries `(key, value)` in strictly increasing key order. -/
abbrev GoMap := List (Int × Int)

namespace GoMap

/-- The comma-ok lookup `v, found := m[k]`. -/
def lookup : GoMap → Int → Option Int
  | [], _ => none
  | (k', v') :: t, k => if k = k' then some v' else lookup t k

/-- The expression `m[k]`: the zero value when the key is absent. -/
def get (m : GoMap) (k : Int) : Int := (lookup m k).getD 0

/-- The assignment `m[k] = v`. -/
def set : GoMap → Int → Int → GoMap
  | [], k, v => [(k, v)]
  | (k', v') :: t, k, v =>
    if k < k' then (k, v) :: (k', v') :: t
    else if k = k' then (k, v) :: t
    else (k', v') :: set t k v

/-- The statement `delete(m, k)`. -/
def delete (m : GoMap) (k : Int) : GoMap := m.filter (fun e => decide (e.1 ≠ k))

/-- Total shipped quantity of a plan: the sum of `size * count` over its entries. -/
def total (m : GoMap) : Int := (m.map (fun e => e.1 * e.2)).sum

/-- Total number of packs of a plan: the sum of its counts. -/
def packs (m : GoMap) : Int := (m.map (fun e => e.2)).sum

/-- Keys are in strictly increasing order (so no key occurs twice). -/
def WF (m : GoMap) : Prop := (m.map Prod.fst).Sorted (· < ·)

end GoMap

/-! ## Sorting -/

/-- Result of `sort.Sort(sort.Reverse(sort.IntSlice(s)))`: `s` in descending order. -/
def sortDesc (s : List Int) : List Int := s.insertionSort (· ≥ ·)

/-- Result of `sort.Sort(sort.IntSlice(s))`: `s` in ascending order. -/
def sortAsc (s : List Int) : List Int := s.insertionSort (· ≤ ·)

/-! ## CalculatePacksToShip -/

/-- The greedy loop (ship.go lines 70-80) over the remaining pack sizes, from the
map `m` and the remaining quantity `r`. -/
def greedyLoop : List Int → GoMap → Int → Except Fault (GoMap × Int)
  | [], m, r => .ok (m, r)
  | packSize :: rest, m, r =>
    if r ≤ 0 then .ok (m, r)
    else if packSize = 0 then .error Fault.divideByZero
    else
      let packs := wrapInt (Int.tdiv r packSize)
      if packs > 0 then
        greedyLoop rest (m.set packSize packs) (wrapInt (r - wrapInt (packs * packSize)))
      else greedyLoop rest m r

/-- The top-up with one pack of the smallest size (ship.go lines 82-86);
`packSizes` is the slice as sorted in descending order. -/
def topUp (packSizes : List Int) (m : GoMap) (r : Int) : Except Fault GoMap :=
  if r > 0 then
    match packSizes.getLast? with
    | none => .error Fault.indexOutOfRange
    | some smallestPackSize =>
      .ok (m.set smallestPackSize (wrapInt (m.get smallestPackSize + 1)))
  else .ok m

/-- One iteration of the redistribution loop (ship.go lines 97-107); `all` holds the
keys of `packSizesAll`. -/
def redistributeStep (all : List Int) (m : GoMap) (packSize : Int) : GoMap :=
  let packSizeNeeded := m.get packSize
  let packsNeeded := wrapInt (packSizeNeeded * packSize)
  if packsNeeded ≤ 0 then m
  else if packsNeeded ∈ all then
    let m1 := m.delete packSize
    m1.set packsNeeded (wrapInt (m1.get packsNeeded + 1))
  else m

/-- The redistribution loop (ship.go lines 96-108) over the remaining pack sizes. -/
def redistribute (all : List Int) : List Int → GoMap → GoMap
  | [], m => m
  | packSize :: rest, m => redistribute all rest (redistributeStep all m packSize)

/-- `CalculatePacksToShip(orderQty, packSizes)`: the returned map together with the
contents of the caller's slice after the call, or the panic raised. -/
def CalculatePacksToShip (orderQty : Int) (packSizes : List Int) :
    Except Fault (GoMap × List Int) :=
  let desc := sortDesc packSizes
  match greedyLoop desc [] orderQty with
  | .error e => .error e
  | .ok (m, remainingQty) =>
    match topUp desc m remainingQty with
    | .error e => .error e
    | .ok m1 =>
      let asc := sortAsc desc
      .ok (redistribute asc asc m1, asc)

/-- The preconditions of the allocator: a strictly positive order quantity and a
non-empty list of strictly positive pack sizes, all of them values of type `int`. -/
def Valid (orderQty : Int) (packSizes : List Int) : Prop :=
  0 < orderQty ∧ orderQty ≤ maxInt ∧ packSizes ≠ [] ∧ ∀ p ∈ packSizes, 0 < p ∧ p ≤ maxInt

instance (orderQty : Int) (packSizes : List Int) : Decidable (Valid orderQty packSizes) := by
  unfold Valid; infer_instance

/-- A combination of whole packs over the sizes `l`: entries `(size, count)` whose size
is one of `l` and whose count is a non-negative whole number. -/
def IsCombination (l : List Int) (c : GoMap) : Prop := ∀ e ∈ c, e.1 ∈ l ∧ 0 ≤ e.2

instance (l : List Int) (c : GoMap) : Decidable (IsCombination l c) := by
  unfold IsCombination; infer_instance

/-! ## Input validation

A Go string is modelled by the list of its characters. A Go `error` returned by the
two extraction functions is modelled by `Option ShipError`: `none` is `nil`, and
`some e` is the error built by `fmt.Errorf` with the verb `%w` applied to the sentinel
`e`, the one sentinel for which `errors.Is` holds. -/

/-- The sentinel errors of the package (ship.go lines 11-16). -/
inductive ShipError where
  | ErrOrderQtyInvalidFormat
  | ErrOrderQtyInvalidValue
  | ErrPackSizesInvalidFormat
  | ErrPackSizeInvalidValue
  deriving DecidableEq, Repr

/-- Value of a string of ASCII decimal digits read from the left, starting from `acc`;
`none` when a character is not a digit. -/
def digitsValue : List Char → Nat → Option Nat
  | [], acc => some acc
  | c :: cs, acc =>
    if 48 ≤ c.toNat ∧ c.toNat ≤ 57 then digitsValue cs (acc * 10 + (c.toNat - 48))
    else none

/-- Result of `strconv.Atoi(s)`: `some n` when `s` is an optional sign followed by one or
more decimal digits and the value fits a 64-bit `int`, `none` when it returns an error
(a syntax error or a range error). -/
def Atoi (s : List Char) : Option Int :=
  let neg : Bool := s.head? = some '-'
  let body : List Char := if s.head? = some '-' ∨ s.head? = some '+' then s.tail else s
  if body = [] then none
  else
    match digitsValue body 0 with
    | none => none
    | some n =>
      let v : Int := if neg then -(n : Int) else (n : Int)
      if -9223372036854775808 ≤ v ∧ v ≤ maxInt then some v else none

/-- Result of `unicode.IsSpace(c)`: the characters with the Unicode White Space property. -/
def isSpace (c : Char) : Bool :=
  let n := c.toNat
  decide ((9 ≤ n ∧ n ≤ 13) ∨ n = 32 ∨ n = 133 ∨ n = 160 ∨ n = 5760 ∨
    (8192 ≤ n ∧ n ≤ 8202) ∨ n = 8232 ∨ n = 8233 ∨ n = 8239 ∨ n = 8287 ∨ n = 12288)

/-- Result of `strings.TrimSpace(s)`: `s` without its leading and trailing white space. -/
def TrimSpace (s : List Char) : List Char :=
  ((s.dropWhile isSpace).reverse.dropWhile isSpace).reverse

/-- Result of `strings.Split(s, ",")`: the fields of `s` between the commas. -/
def Split : List Char → List (List Char)
  | [] => [[]]
  | c :: cs =>
    if c = ',' then [] :: Split cs
    else
      match Split cs with
      | [] => [[c]]
      | f :: fs => (c :: f) :: fs

/-- `ExtractOrderQty(orderQtyStr)`: the returned integer and error. -/
def ExtractOrderQty (orderQtyStr : String) : Int × Option ShipError :=
  match Atoi orderQtyStr.toList with
  | none => (0, some ShipError.ErrOrderQtyInvalidFormat)
  | some orderQty =>
    if orderQty ≤ 0 then (0, some ShipError.ErrOrderQtyInvalidValue)
    else (orderQty, none)

/-- The conversion loop of `ExtractPackSizes` (ship.go lines 44-54) over the remaining
trimmed fields: the integers stored so far from this field on, or the error returned. -/
def convertLoop : List (List Char) → Except ShipError (List Int)
  | [] => .ok []
  | packSizeStr :: rest =>
    match Atoi packSizeStr with
    | none => .error ShipError.ErrPackSizesInvalidFormat
    | some packSize =>
      if packSize ≤ 0 then .error ShipError.ErrPackSizeInvalidValue
      else
        match convertLoop rest with
        | .error e => .error e
        | .ok packSizes => .ok (packSize :: packSizes)

/-- The trimmed fields of the input of `ExtractPackSizes` (ship.go lines 36-41). -/
def packSizesStrList (packSizesStr : String) : List (List Char) :=
  (Split packSizesStr.toList).map TrimSpace

/-- `ExtractPackSizes(packSizesStr)`: the returned slice (`none` is the nil slice) and
error. -/
def ExtractPackSizes (packSizesStr : String) : Option (List Int) × Option ShipError :=
  match convertLoop (packSizesStrList packSizesStr) with
  | .error e => (none, some e)
  | .ok packSizes => (some packSizes, none)

/-- A field that the conversion loop accepts: it parses to a strictly positive integer. -/
def acceptedField (f : List Char) : Bool :=
  match Atoi f with
  | none => false
  | some n => decide (0 < n)

/-! ## Invariants -/

/-- Entries of a plan over the pack sizes `l`: every key is drawn from `l` and every
stored count is at least one. -/
def Good (l : List Int) (m : GoMap) : Prop := ∀ e ∈ m, e.1 ∈ l ∧ 1 ≤ e.2

/-- Every element of the list is a strictly positive value of type `int`. -/
def AllPos (l : List Int) : Prop := ∀ p ∈ l, 0 < p ∧ p ≤ maxInt

/-- Invariant of the greedy loop for the order `q` over the pack sizes `l`. -/
def GInv (l : List Int) (q : Int) (m : GoMap) (r : Int) : Prop :=
  m.WF ∧ Good l m ∧ 0 ≤ r ∧ r ≤ maxInt ∧ m.total + r = q ∧ ∀ e ∈ m, r < e.1

/-- Invariant of the plan from the top-up on: a well-formed map over the pack sizes `l`
with total quantity `T`. -/
def PInv (l : List Int) (T : Int) (m : GoMap) : Prop := m.WF ∧ Good l m ∧ m.total = T

/-! ## Machine integers: lemmas -/

theorem wrapInt_eq_self {x : Int} (h1 : -9223372036854775808 ≤ x) (h2 : x ≤ maxInt) :
    wrapInt x = x := by
  unfold wrapInt maxInt at *; omega

theorem wrapInt_le_maxInt (x : Int) : wrapInt x ≤ maxInt := by
  unfold wrapInt maxInt; omega

theorem wrapInt_neg_of_overflow {x : Int} (h1 : maxInt < x) (h2 : x < 18446744073709551616) :
    wrapInt x < 0 := by
  unfold wrapInt maxInt at *; omega

/-! ## Go maps: lemmas -/

namespace GoMap

theorem lookup_set (m : GoMap) (k v x : Int) :
    lookup (set m k v) x = if x = k then some v else lookup m x := by
  induction m with
  | nil => simp [set, lookup]
  | cons e t ih =>
    obtain ⟨k', v'⟩ := e
    by_cases h1 : k < k'
    · simp [set, lookup, h1]
    · by_cases h2 : k = k'
      · subst h2
        simp only [set, lookup, h1, if_false, if_true]
        split_ifs <;> rfl
      · simp only [set, lookup, h1, h2, if_false, ih]
        split_ifs with h3 h4 <;> first | rfl | (exfalso; omega)

theorem delete_nil (k : Int) : delete [] k = [] := rfl

theorem delete_cons (k' v' : Int) (t : GoMap) (k : Int) :
    delete ((k', v') :: t) k = if k' = k then delete t k else (k', v') :: delete t k := by
  unfold delete
  by_cases h : k' = k <;> simp [List.filter_cons, h]

theorem lookup_delete (m : GoMap) (k x : Int) :
    lookup (delete m k) x = if x = k then none else lookup m x := by
  induction m with
  | nil => simp [delete, lookup]
  | cons e t ih =>
    obtain ⟨k', v'⟩ := e
    rw [delete_cons]
    by_cases h : k' = k
    · subst h
      simp only [if_true, lookup, ih]
      split_ifs <;> rfl
    · simp only [h, if_false, lookup, ih]
      split_ifs with h3 h4 <;> first | rfl | (exfalso; omega)

theorem get_set (m : GoMap) (k v x : Int) :
    get (set m k v) x = if x = k then v else get m x := by
  unfold get; rw [lookup_set]; split_ifs <;> rfl

theorem get_delete (m : GoMap) (k x : Int) :
    get (delete m k) x = if x = k then 0 else get m x := by
  unfold get; rw [lookup_delete]; split_ifs <;> rfl

theorem mem_set {m : GoMap} {k v : Int} {e : Int × Int} (h : e ∈ set m k v) :
    e = (k, v) ∨ e ∈ m := by
  induction m with
  | nil => simp [set] at h; exact Or.inl h
  | cons a t ih =>
    obtain ⟨k', v'⟩ := a
    by_cases h1 : k < k'
    · simp only [set, h1, if_true, List.mem_cons] at h
      rcases h with h | h | h
      · exact Or.inl h
      · exact Or.inr (h ▸ List.mem_cons_self _ _)
      · exact Or.inr (List.mem_cons_of_mem _ h)
    · by_cases h2 : k = k'
      · subst h2
        simp only [set, h1, if_false, if_true, List.mem_cons] at h
        rcases h with h | h
        · exact Or.inl h
        · exact Or.inr (List.mem_cons_of_mem _ h)
      · simp only [set, h1, h2, if_false, List.mem_cons] at h
        rcases h with h | h
        · exact Or.inr (h ▸ List.mem_cons_self _ _)
        · rcases ih h with h | h
          · exact Or.inl h
          · exact Or.inr (List.mem_cons_of_mem _ h)

theorem mem_delete {m : GoMap} {k : Int} {e : Int × Int} :
    e ∈ delete m k ↔ e ∈ m ∧ e.1 ≠ k := by
  unfold delete; simp [List.mem_filter]

theorem WF_nil : WF [] := by simp [WF]

theorem WF_cons {k v : Int} {t : GoMap} :
    WF ((k, v) :: t) ↔ (∀ e ∈ t, k < e.1) ∧ WF t := by
  unfold WF
  simp [List.sorted_cons]

theorem WF_delete {m : GoMap} (k : Int) (h : WF m) : WF (delete m k) := by
  induction m with
  | nil => exact h
  | cons a t ih =>
    obtain ⟨k', v'⟩ := a
    rw [WF_cons] at h
    rw [delete_cons]
    split_ifs with h1
    · exact ih h.2
    · rw [WF_cons]
      exact ⟨fun e he => h.1 e (mem_delete.1 he).1, ih h.2⟩

theorem WF_set {m : GoMap} (k v : Int) (h : WF m) : WF (set m k v) := by
  induction m with
  | nil => simp [set, WF]
  | cons a t ih =>
    obtain ⟨k', v'⟩ := a
    have h0 := h
    rw [WF_cons] at h
    by_cases h1 : k < k'
    · simp only [set, h1, if_true]
      rw [WF_cons]
      refine ⟨?_, h0⟩
      intro e he
      rcases List.mem_cons.1 he with rfl | he
      · exact h1
      · exact lt_trans h1 (h.1 e he)
    · by_cases h2 : k = k'
      · subst h2
        simp only [set, h1, if_false, if_true]
        rw [WF_cons]; exact h
      · simp only [set, h1, h2, if_false]
        rw [WF_cons]
        refine ⟨?_, ih h.2⟩
        intro e he
        rcases mem_set he with rfl | he
        · show k' < k
          omega
        · exact h.1 e he

theorem lookup_eq_none_of_lt {t : GoMap} {x : Int} (h : ∀ e ∈ t, x < e.1) :
    lookup t x = none := by
  induction t with
  | nil => rfl
  | cons a t ih =>
    obtain ⟨k', v'⟩ := a
    have h1 : x < k' := h (k', v') (List.mem_cons_self _ _)
    have h2 : x ≠ k' := by omega
    simp only [lookup, h2, if_false]
    exact ih (fun e he => h e (List.mem_cons_of_mem _ he))

theorem mem_iff_lookup {m : GoMap} (h : WF m) (k v : Int) :
    (k, v) ∈ m ↔ lookup m k = some v := by
  induction m with
  | nil => simp [lookup]
  | cons a t ih =>
    obtain ⟨k', v'⟩ := a
    rw [WF_cons] at h
    by_cases h1 : k = k'
    · subst h1
      simp only [lookup, if_true, List.mem_cons, Prod.mk.injEq, true_and, Option.some.injEq]
      constructor
      · rintro (h2 | h2)
        · exact h2.symm
        · exact absurd (h.1 _ h2) (lt_irrefl _)
      · intro h2; exact Or.inl h2.symm
    · simp only [lookup, h1, if_false, List.mem_cons, Prod.mk.injEq, false_and, false_or]
      exact ih h.2

theorem ext {m1 m2 : GoMap} (h1 : WF m1) (h2 : WF m2)
    (h : ∀ x, lookup m1 x = lookup m2 x) : m1 = m2 := by
  induction m1 generalizing m2 with
  | nil =>
    cases m2 with
    | nil => rfl
    | cons b t2 =>
      obtain ⟨k2, v2⟩ := b
      have := h k2
      simp [lookup] at this
  | cons a t1 ih =>
    obtain ⟨k1, v1⟩ := a
    cases m2 with
    | nil =>
      have := h k1
      simp [lookup] at this
    | cons b t2 =>
      obtain ⟨k2, v2⟩ := b
      rw [WF_cons] at h1 h2
      have e1 := h k1
      have e2 := h k2
      simp only [lookup, if_true] at e1 e2
      have hk : k1 = k2 := by
        by_contra hne
        have hne2 : ¬ k2 = k1 := fun e => hne e.symm
        simp only [hne, hne2, if_false] at e1 e2
        rcases lt_or_gt_of_ne hne with hlt | hgt
        · rw [lookup_eq_none_of_lt (fun e he => lt_trans hlt (h2.1 e he))] at e1
          exact Option.noConfusion e1
        · rw [lookup_eq_none_of_lt (fun e he => lt_trans hgt (h1.1 e he))] at e2
          exact Option.noConfusion e2.symm
      subst hk
      simp only [if_true, Option.some.injEq] at e1
      subst e1
      congr 1
      apply ih h1.2 h2.2
      intro x
      by_cases hx : x = k1
      · subst hx
        rw [lookup_eq_none_of_lt h1.1, lookup_eq_none_of_lt h2.1]
      · have := h x
        simpa only [lookup, hx, if_false] using this

theorem total_nil : total [] = 0 := rfl

theorem total_cons (k v : Int) (t : GoMap) : total ((k, v) :: t) = k * v + total t := by
  simp [total]

theorem get_cons (k' v' : Int) (t : GoMap) (k : Int) :
    get ((k', v') :: t) k = if k = k' then v' else get t k := by
  unfold get; simp only [lookup]; split_ifs <;> rfl

theorem get_eq_zero_of_lt {t : GoMap} {x : Int} (h : ∀ e ∈ t, x < e.1) : get t x = 0 := by
  unfold get; rw [lookup_eq_none_of_lt h]; rfl

theorem total_delete {m : GoMap} (k : Int) (h : WF m) :
    total (delete m k) = total m - k * get m k := by
  induction m with
  | nil => simp [delete, total, get, lookup]
  | cons a t ih =>
    obtain ⟨k', v'⟩ := a
    rw [WF_cons] at h
    rw [delete_cons, get_cons, total_cons]
    by_cases h1 : k' = k
    · subst h1
      simp only [if_true]
      rw [ih h.2, get_eq_zero_of_lt h.1]; ring
    · have h2 : ¬ k = k' := fun e => h1 e.symm
      simp only [h1, h2, if_false]
      rw [total_cons, ih h.2]; ring

theorem total_set {m : GoMap} (k v : Int) (h : WF m) :
    total (set m k v) = total m - k * get m k + k * v := by
  induction m with
  | nil => simp [set, total, get, lookup]
  | cons a t ih =>
    obtain ⟨k', v'⟩ := a
    have h0 := h
    rw [WF_cons] at h
    rw [get_cons, total_cons]
    by_cases h1 : k < k'
    · have h2 : ¬ k = k' := by omega
      simp only [set, h1, h2, if_true, if_false]
      rw [total_cons, total_cons, get_eq_zero_of_lt (fun e he => lt_trans h1 (h.1 e he))]; ring
    · by_cases h2 : k = k'
      · subst h2
        simp only [set, h1, if_false, if_true]
        rw [total_cons]; ring
      · simp only [set, h1, h2, if_false]
        rw [total_cons, ih h.2]; ring

theorem lookup_eq_none_of_ne {m : GoMap} {x : Int} (h : ∀ e ∈ m, e.1 ≠ x) :
    lookup m x = none := by
  induction m with
  | nil => rfl
  | cons a t ih =>
    obtain ⟨k', v'⟩ := a
    have h1 : k' ≠ x := h (k', v') (List.mem_cons_self _ _)
    have h2 : ¬ x = k' := fun e => h1 e.symm
    simp only [lookup, h2, if_false]
    exact ih (fun e he => h e (List.mem_cons_of_mem _ he))

theorem get_eq_zero_of_ne {m : GoMap} {x : Int} (h : ∀ e ∈ m, e.1 ≠ x) : get m x = 0 := by
  unfold get; rw [lookup_eq_none_of_ne h]; rfl

theorem mem_of_lookup {m : GoMap} {k v : Int} (h : lookup m k = some v) : (k, v) ∈ m := by
  induction m with
  | nil => simp [lookup] at h
  | cons a t ih =>
    obtain ⟨k', v'⟩ := a
    by_cases h1 : k = k'
    · subst h1
      simp only [lookup, if_true, Option.some.injEq] at h
      subst h
      exact List.mem_cons_self _ _
    · simp only [lookup, h1, if_false] at h
      exact List.mem_cons_of_mem _ (ih h)

theorem total_nonneg {m : GoMap} (h : ∀ e ∈ m, 0 ≤ e.1 * e.2) : 0 ≤ total m := by
  induction m with
  | nil => simp [total]
  | cons a t ih =>
    obtain ⟨k', v'⟩ := a
    rw [total_cons]
    have h1 := h (k', v') (List.mem_cons_self _ _)
    have h2 := ih (fun e he => h e (List.mem_cons_of_mem _ he))
    simp only at h1
    omega

theorem mul_get_le_total {m : GoMap} (h : ∀ e ∈ m, 0 ≤ e.1 * e.2) (k : Int) :
    k * get m k ≤ total m := by
  induction m with
  | nil => simp [total, get, lookup]
  | cons a t ih =>
    obtain ⟨k', v'⟩ := a
    rw [total_cons, get_cons]
    have h1 := h (k', v') (List.mem_cons_self _ _)
    have ht : ∀ e ∈ t, 0 ≤ e.1 * e.2 := fun e he => h e (List.mem_cons_of_mem _ he)
    have h2 := ih ht
    have h3 := total_nonneg ht
    simp only at h1
    by_cases hk : k = k'
    · subst hk
      simp only [if_true]; omega
    · simp only [hk, if_false]; omega

end GoMap

theorem Good.prod_nonneg {l : List Int} {m : GoMap} (hl : AllPos l) (h : Good l m) :
    ∀ e ∈ m, 0 ≤ e.1 * e.2 := by
  intro e he
  have h1 := h e he
  have h2 := hl e.1 h1.1
  exact mul_nonneg (by omega) (by omega)

theorem Good.get_nonneg {l : List Int} {m : GoMap} (h : Good l m) (k : Int) :
    0 ≤ m.get k := by
  unfold GoMap.get
  cases hk : m.lookup k with
  | none => simp
  | some v =>
    have := (h _ (GoMap.mem_of_lookup hk)).2
    simp only [Option.getD_some]
    simp only at this; omega

theorem Good.get_pos_mem {l : List Int} {m : GoMap} (h : Good l m) {k : Int}
    (hk : 0 < m.get k) : k ∈ l := by
  unfold GoMap.get at hk
  cases hk1 : m.lookup k with
  | none => rw [hk1] at hk; simp at hk
  | some v => exact (h _ (GoMap.mem_of_lookup hk1)).1

theorem Good.set {l : List Int} {m : GoMap} (h : Good l m) {k v : Int} (hk : k ∈ l)
    (hv : 1 ≤ v) : Good l (m.set k v) := by
  intro e he
  rcases GoMap.mem_set he with rfl | he
  · exact ⟨hk, hv⟩
  · exact h e he

theorem Good.delete {l : List Int} {m : GoMap} (h : Good l m) (k : Int) :
    Good l (m.delete k) :=
  fun e he => h e (GoMap.mem_delete.1 he).1

/-! ## The greedy loop -/

theorem greedy_arith {r p : Int} (hr : 0 < r) (hrm : r ≤ maxInt) (hp : 0 < p) :
    wrapInt (Int.tdiv r p) = r / p ∧ 0 ≤ r / p ∧
    wrapInt (r - wrapInt (r / p * p)) = r % p ∧ 0 ≤ r % p ∧ r % p < p ∧
    r / p * p + r % p = r := by
  have h1 : Int.tdiv r p = r / p := Int.tdiv_eq_ediv (le_of_lt hr) (le_of_lt hp)
  have h2 : 0 ≤ r / p := Int.ediv_nonneg (le_of_lt hr) (le_of_lt hp)
  have h3 : r / p ≤ r := Int.ediv_le_self p (le_of_lt hr)
  have h4 : r / p * p + r % p = r := Int.ediv_add_emod' r p
  have h5 : 0 ≤ r % p := Int.emod_nonneg r (ne_of_gt hp)
  have h6 : r % p < p := Int.emod_lt_of_pos r hp
  have h7 : 0 ≤ r / p * p := mul_nonneg h2 (le_of_lt hp)
  have e1 : wrapInt (r / p) = r / p := wrapInt_eq_self (by omega) (by omega)
  have e2 : wrapInt (r / p * p) = r / p * p := wrapInt_eq_self (by omega) (by omega)
  have e3 : wrapInt (r - r / p * p) = r % p := by
    rw [wrapInt_eq_self (by omega) (by omega)]; omega
  rw [h1, e1, e2, e3]
  exact ⟨rfl, h2, rfl, h5, h6, h4⟩

theorem greedyLoop_spec {l : List Int} (hl : AllPos l) (q : Int) :
    ∀ (ps : List Int) (m : GoMap) (r : Int), (∀ p ∈ ps, p ∈ l) → GInv l q m r →
      ∃ m1 r1, greedyLoop ps m r = .ok (m1, r1) ∧ GInv l q m1 r1 ∧ r1 ≤ r ∧
        ∀ p ∈ ps, r1 < p := by
  intro ps
  induction ps with
  | nil =>
    intro m r _ h
    exact ⟨m, r, rfl, h, le_refl _, by simp⟩
  | cons p ps ih =>
    intro m r hps h
    obtain ⟨hwf, hg, hr0, hrm, htot, hkeys⟩ := h
    have hp := hl p (hps p (List.mem_cons_self _ _))
    have hps1 : ∀ x ∈ ps, x ∈ l := fun x hx => hps x (List.mem_cons_of_mem _ hx)
    by_cases hr : r ≤ 0
    · refine ⟨m, r, by simp [greedyLoop, hr], ⟨hwf, hg, hr0, hrm, htot, hkeys⟩, le_refl _, ?_⟩
      intro x hx
      have := (hl x (hps x hx)).1
      omega
    · have hr1 : 0 < r := by omega
      obtain ⟨a1, a2, a3, a4, a5, a6⟩ := greedy_arith hr1 hrm hp.1
      have hp0 : ¬ p = 0 := by omega
      by_cases hd : r / p > 0
      · have hle : p ≤ r / p * p := by
          have := mul_le_mul_of_nonneg_right (show (1 : Int) ≤ r / p by omega) (le_of_lt hp.1)
          simpa using this
        have hget : m.get p = 0 :=
          GoMap.get_eq_zero_of_ne (fun e he => by have := hkeys e he; omega)
        have hinv : GInv l q (m.set p (r / p)) (r % p) := by
          refine ⟨GoMap.WF_set _ _ hwf, hg.set (hps p (List.mem_cons_self _ _)) (by omega),
            a4, by omega, ?_, ?_⟩
          · rw [GoMap.total_set _ _ hwf, hget]
            have : p * (r / p) = r / p * p := mul_comm _ _
            simp only [mul_zero, sub_zero]
            omega
          · intro e he
            rcases GoMap.mem_set he with rfl | he
            · exact a5
            · have := hkeys e he; omega
        obtain ⟨m1, r1, e1, i1, le1, lt1⟩ := ih _ _ hps1 hinv
        refine ⟨m1, r1, ?_, i1, by omega, ?_⟩
        · simp only [greedyLoop, hr, hp0, if_false, a1, hd, if_true, a3]
          exact e1
        · intro x hx
          rcases List.mem_cons.1 hx with rfl | hx
          · omega
          · exact lt1 x hx
      · have hd0 : r / p = 0 := by omega
        have hlt : r < p := by rw [hd0] at a6; omega
        obtain ⟨m1, r1, e1, i1, le1, lt1⟩ := ih m r hps1 ⟨hwf, hg, hr0, hrm, htot, hkeys⟩
        refine ⟨m1, r1, ?_, i1, le1, ?_⟩
        · simp only [greedyLoop, hr, hp0, if_false, a1, hd]
          exact e1
        · intro x hx
          rcases List.mem_cons.1 hx with rfl | hx
          · omega
          · exact lt1 x hx

/-! ## Sorting: lemmas -/

theorem sortDesc_perm (l : List Int) : (sortDesc l).Perm l := List.perm_insertionSort _ l

theorem sortAsc_perm (l : List Int) : (sortAsc l).Perm l := List.perm_insertionSort _ l

theorem sortDesc_sorted (l : List Int) : (sortDesc l).Sorted (· ≥ ·) :=
  List.sorted_insertionSort _ l

theorem sortAsc_sorted (l : List Int) : (sortAsc l).Sorted (· ≤ ·) :=
  List.sorted_insertionSort _ l

theorem mem_sortDesc {l : List Int} {x : Int} : x ∈ sortDesc l ↔ x ∈ l :=
  (sortDesc_perm l).mem_iff

theorem mem_sortAsc {l : List Int} {x : Int} : x ∈ sortAsc l ↔ x ∈ l :=
  (sortAsc_perm l).mem_iff

theorem sortDesc_congr {l1 l2 : List Int} (h : l1.Perm l2) : sortDesc l1 = sortDesc l2 :=
  List.eq_of_perm_of_sorted (((sortDesc_perm l1).trans h).trans (sortDesc_perm l2).symm)
    (sortDesc_sorted l1) (sortDesc_sorted l2)

theorem sortAsc_congr {l1 l2 : List Int} (h : l1.Perm l2) : sortAsc l1 = sortAsc l2 :=
  List.eq_of_perm_of_sorted (((sortAsc_perm l1).trans h).trans (sortAsc_perm l2).symm)
    (sortAsc_sorted l1) (sortAsc_sorted l2)

theorem sortAsc_sortDesc (l : List Int) : sortAsc (sortDesc l) = sortAsc l :=
  sortAsc_congr (sortDesc_perm l)

theorem sortDesc_ne_nil {l : List Int} (h : l ≠ []) : sortDesc l ≠ [] := by
  intro h1
  have := sortDesc_perm l
  rw [h1] at this
  exact h (List.Perm.nil_eq this).symm

theorem getLast?_of_sorted_ge :
    ∀ (L : List Int), L ≠ [] → L.Sorted (· ≥ ·) →
      ∃ s, L.getLast? = some s ∧ s ∈ L ∧ ∀ p ∈ L, s ≤ p := by
  intro L
  induction L with
  | nil => intro h; exact absurd rfl h
  | cons a t ih =>
    intro _ hs
    cases t with
    | nil => exact ⟨a, rfl, List.mem_cons_self _ _, by simp⟩
    | cons b t =>
      rw [List.sorted_cons] at hs
      obtain ⟨s, e, hm, hmin⟩ := ih (by simp) hs.2
      refine ⟨s, by rw [List.getLast?_cons_cons]; exact e, List.mem_cons_of_mem _ hm, ?_⟩
      intro x hx
      rcases List.mem_cons.1 hx with rfl | hx
      · have := hs.1 s hm
        exact this
      · exact hmin x hx

theorem getLast?_sortDesc {l : List Int} (h : l ≠ []) :
    ∃ s, (sortDesc l).getLast? = some s ∧ s ∈ l ∧ ∀ p ∈ l, s ≤ p := by
  obtain ⟨s, e, hm, hmin⟩ := getLast?_of_sorted_ge _ (sortDesc_ne_nil h) (sortDesc_sorted l)
  exact ⟨s, e, mem_sortDesc.1 hm, fun p hp => hmin p (mem_sortDesc.2 hp)⟩

/-! ## The top-up and the redistribution loop -/

theorem topUp_spec {l : List Int} (hl : AllPos l) (hne : l ≠ []) {q r : Int} {m : GoMap}
    (hq : q ≤ maxInt) (h : GInv l q m r) :
    ∃ m1 s, (sortDesc l).getLast? = some s ∧ s ∈ l ∧ (∀ p ∈ l, s ≤ p) ∧
      topUp (sortDesc l) m r = .ok m1 ∧
      PInv l (if r > 0 then q - r + s else q) m1 := by
  obtain ⟨s, e, hs, hmin⟩ := getLast?_sortDesc hne
  obtain ⟨hwf, hg, hr0, hrm, htot, hkeys⟩ := h
  by_cases hr : r > 0
  · have hsp := hl s hs
    have hg0 := hg.get_nonneg s
    have h1 := GoMap.mul_get_le_total (hg.prod_nonneg hl) s
    have h2 : m.get s ≤ s * m.get s := by
      have := mul_le_mul_of_nonneg_right (show (1 : Int) ≤ s by omega) hg0
      simpa using this
    have hw : wrapInt (m.get s + 1) = m.get s + 1 :=
      wrapInt_eq_self (by omega) (by omega)
    refine ⟨m.set s (m.get s + 1), s, e, hs, hmin, ?_, GoMap.WF_set _ _ hwf,
      hg.set hs (by omega), ?_⟩
    · simp only [topUp, hr, if_true, e, hw]
    · rw [GoMap.total_set _ _ hwf]
      simp only [hr, if_true]
      have : s * (m.get s + 1) = s * m.get s + s := by ring
      omega
  · refine ⟨m, s, e, hs, hmin, ?_, hwf, hg, ?_⟩
    · simp only [topUp, hr, if_false]
    · simp only [hr, if_false]; omega

theorem redistributeStep_spec {l all : List Int} (hl : AllPos l) (hall : ∀ x ∈ all, x ∈ l)
    {T : Int} (hT : T ≤ 2 * maxInt) {m : GoMap} (h : PInv l T m) (p : Int) :
    PInv l T (redistributeStep all m p) := by
  obtain ⟨hwf, hg, htot⟩ := h
  have hn0 := hg.get_nonneg p
  have hle := GoMap.mul_get_le_total (hg.prod_nonneg hl) p
  unfold redistributeStep
  simp only
  by_cases h1 : wrapInt (m.get p * p) ≤ 0
  · simp only [h1, if_true]; exact ⟨hwf, hg, htot⟩
  · simp only [h1, if_false]
    by_cases h2 : wrapInt (m.get p * p) ∈ all
    · simp only [h2, if_true]
      have hcomm : m.get p * p = p * m.get p := mul_comm _ _
      have hnp : m.get p * p ≤ maxInt := by
        by_contra hc
        have := wrapInt_neg_of_overflow (x := m.get p * p) (by omega)
          (by unfold maxInt at hT; omega)
        omega
      have hn1 : 0 < m.get p := by
        rcases eq_or_lt_of_le hn0 with h0 | h0
        · rw [← h0, zero_mul] at h1; exact absurd (by decide : wrapInt 0 ≤ 0) h1
        · exact h0
      have hpl := hl p (hg.get_pos_mem hn1)
      have hnpos : 0 ≤ m.get p * p := mul_nonneg hn0 (by omega)
      have hw : wrapInt (m.get p * p) = m.get p * p :=
        wrapInt_eq_self (by omega) hnp
      rw [hw] at h1 h2 ⊢
      have hN := hl _ (hall _ h2)
      have hwf1 := GoMap.WF_delete p hwf
      have hg1 := hg.delete p
      have htot1 := GoMap.total_delete p hwf
      have hc0 := hg1.get_nonneg (m.get p * p)
      have hle1 := GoMap.mul_get_le_total (hg1.prod_nonneg hl) (m.get p * p)
      have hcm : (m.delete p).get (m.get p * p) + 1 ≤ maxInt := by
        by_cases hself : m.get p * p = p
        · rw [hself, GoMap.get_delete]; simp [maxInt]
        · have hn2 : 2 ≤ m.get p := by
            by_contra hc
            have : m.get p = 1 := by omega
            rw [this] at hself; simp at hself
          have h2p : 2 ≤ m.get p * p := by
            have := mul_le_mul hn2 (show (1 : Int) ≤ p by omega) (by omega) (by omega)
            simpa using this
          have := mul_le_mul_of_nonneg_right h2p hc0
          omega
      have hw2 : wrapInt ((m.delete p).get (m.get p * p) + 1)
          = (m.delete p).get (m.get p * p) + 1 := wrapInt_eq_self (by omega) hcm
      rw [hw2]
      refine ⟨GoMap.WF_set _ _ hwf1, hg1.set (hall _ h2) (by omega), ?_⟩
      rw [GoMap.total_set _ _ hwf1, htot1]
      have : m.get p * p * ((m.delete p).get (m.get p * p) + 1)
          = m.get p * p * (m.delete p).get (m.get p * p) + m.get p * p := by ring
      omega
    · simp only [h2, if_false]; exact ⟨hwf, hg, htot⟩

theorem redistribute_spec {l all : List Int} (hl : AllPos l) (hall : ∀ x ∈ all, x ∈ l)
    {T : Int} (hT : T ≤ 2 * maxInt) :
    ∀ (ps : List Int) (m : GoMap), PInv l T m → PInv l T (redistribute all ps m) := by
  intro ps
  induction ps with
  | nil => intro m h; exact h
  | cons p ps ih =>
    intro m h
    exact ih _ (redistributeStep_spec hl hall hT h p)

/-! ## The whole function -/

theorem CalculatePacksToShip_spec {q : Int} {l : List Int} (h : Valid q l) :
    ∃ plan s T, CalculatePacksToShip q l = .ok (plan, sortAsc l) ∧
      s ∈ l ∧ (∀ p ∈ l, s ≤ p) ∧ PInv l T plan ∧ q ≤ T ∧ T < q + s := by
  obtain ⟨hq0, hqm, hne, hl⟩ := h
  have hl1 : AllPos l := hl
  have hinv0 : GInv l q [] q :=
    ⟨GoMap.WF_nil, by intro e he; simp at he, le_of_lt hq0, hqm, by simp [GoMap.total],
      by intro e he; simp at he⟩
  obtain ⟨m, r, e1, hinv, _, hlt⟩ :=
    greedyLoop_spec hl1 q (sortDesc l) [] q (fun p hp => mem_sortDesc.1 hp) hinv0
  obtain ⟨m1, s, _, hs, hmin, e2, hp⟩ := topUp_spec hl1 hne hqm hinv
  have hrs : r < s := hlt s (mem_sortDesc.2 hs)
  have hr0 : 0 ≤ r := hinv.2.2.1
  have hsm := (hl s hs).2
  have hT : (if r > 0 then q - r + s else q) ≤ 2 * maxInt := by
    split_ifs <;> omega
  have hall : ∀ x ∈ sortAsc l, x ∈ l := fun x hx => mem_sortAsc.1 hx
  have hfin := redistribute_spec hl1 hall hT (sortAsc l) m1 hp
  refine ⟨_, s, _, ?_, hs, hmin, hfin, ?_, ?_⟩
  · simp only [CalculatePacksToShip, e1, e2, sortAsc_sortDesc]
  · split_ifs <;> omega
  · have hs0 := (hl s hs).1
    split_ifs <;> omega

/-! ## The claims -/

/-- C1 (coverage): for a valid order and valid pack sizes the function returns a plan
whose total quantity, the sum of size times count over its entries, is at least the
order quantity. -/
theorem C1_coverage (orderQty : Int) (packSizes : List Int) (h : Valid orderQty packSizes) :
    ∃ plan s, CalculatePacksToShip orderQty packSizes = .ok (plan, s) ∧
      orderQty ≤ plan.total := by
  obtain ⟨plan, _, T, e, _, _, hp, hT, _⟩ := CalculatePacksToShip_spec h
  exact ⟨plan, _, e, by rw [hp.2.2]; exact hT⟩

/-- C1, witness: the order 12001 over the sizes 250, 500, 1000, 2000, 5000. -/
theorem C1_coverage_witness :
    Valid 12001 [250, 500, 1000, 2000, 5000] ∧
    ∃ plan s, CalculatePacksToShip 12001 [250, 500, 1000, 2000, 5000] = .ok (plan, s) ∧
      12001 ≤ plan.total :=
  ⟨by decide, C1_coverage 12001 [250, 500, 1000, 2000, 5000] (by decide)⟩

/-- C4 (well-formed plan): for a valid order and valid pack sizes the function returns
a plan in which no key occurs twice, every key is one of the supplied pack sizes and
every stored count is at least one. -/
theorem C4_well_formed (orderQty : Int) (packSizes : List Int)
    (h : Valid orderQty packSizes) :
    ∃ plan s, CalculatePacksToShip orderQty packSizes = .ok (plan, s) ∧ plan.WF ∧
      ∀ e ∈ plan, e.1 ∈ packSizes ∧ 1 ≤ e.2 := by
  obtain ⟨plan, _, T, e, _, _, hp, _, _⟩ := CalculatePacksToShip_spec h
  exact ⟨plan, _, e, hp.1, hp.2.1⟩

/-- C4, witness: the order 501 over the sizes 250, 500, 1000, 2000, 5000. -/
theorem C4_well_formed_witness :
    Valid 501 [250, 500, 1000, 2000, 5000] ∧
    ∃ plan s, CalculatePacksToShip 501 [250, 500, 1000, 2000, 5000] = .ok (plan, s) ∧
      plan.WF ∧ ∀ e ∈ plan, e.1 ∈ [250, 500, 1000, 2000, 5000] ∧ 1 ≤ e.2 :=
  ⟨by decide, C4_well_formed 501 [250, 500, 1000, 2000, 5000] (by decide)⟩

/-- C5 (concrete scenarios): the six plans of the test table and of the specification. -/
theorem C5_scenarios :
    (∃ s, CalculatePacksToShip 1 [250, 500, 1000, 2000, 5000] = .ok ([(250, 1)], s)) ∧
    (∃ s, CalculatePacksToShip 250 [250, 500, 1000, 2000, 5000] = .ok ([(250, 1)], s)) ∧
    (∃ s, CalculatePacksToShip 251 [250, 500, 1000, 2000, 5000] = .ok ([(500, 1)], s)) ∧
    (∃ s, CalculatePacksToShip 501 [250, 500, 1000, 2000, 5000]
      = .ok ([(250, 1), (500, 1)], s)) ∧
    (∃ s, CalculatePacksToShip 12001 [250, 500, 1000, 2000, 5000]
      = .ok ([(250, 1), (2000, 1), (5000, 2)], s)) ∧
    (∃ s, CalculatePacksToShip 600 [250] = .ok ([(250, 3)], s)) :=
  ⟨⟨_, rfl⟩, ⟨_, rfl⟩, ⟨_, rfl⟩, ⟨_, rfl⟩, ⟨_, rfl⟩, ⟨_, rfl⟩⟩

/-- C9 (no run-time fault): for a valid order and valid pack sizes the function raises
neither the division-by-zero nor the index-out-of-range panic; it returns a plan. -/
theorem C9_no_fault (orderQty : Int) (packSizes : List Int) (h : Valid orderQty packSizes) :
    (∀ e, CalculatePacksToShip orderQty packSizes ≠ .error e) ∧
    ∃ plan s, CalculatePacksToShip orderQty packSizes = .ok (plan, s) := by
  obtain ⟨plan, _, T, e, _⟩ := CalculatePacksToShip_spec h
  refine ⟨?_, plan, _, e⟩
  intro f hf
  rw [e] at hf
  exact Except.noConfusion hf

/-- C9, witness: the order 600 over the single size 250. -/
theorem C9_no_fault_witness :
    Valid 600 [250] ∧ (∀ e, CalculatePacksToShip 600 [250] ≠ .error e) ∧
    ∃ plan s, CalculatePacksToShip 600 [250] = .ok (plan, s) :=
  ⟨by decide, C9_no_fault 600 [250] (by decide)⟩

/-- C6 (order independence): two lists of pack sizes that are permutations of each
other give the same plan for a valid order. -/
theorem C6_order_independent (orderQty : Int) (l1 l2 : List Int) (h : Valid orderQty l1)
    (hp : l1.Perm l2) :
    ∃ plan s, CalculatePacksToShip orderQty l1 = .ok (plan, s) ∧
      CalculatePacksToShip orderQty l2 = .ok (plan, s) := by
  obtain ⟨plan, _, T, e, _⟩ := CalculatePacksToShip_spec h
  refine ⟨plan, _, e, ?_⟩
  rw [← e]
  simp only [CalculatePacksToShip, sortDesc_congr hp]

/-- C6, witness: the sizes 250, 500, 1000 and their rearrangement 1000, 250, 500. -/
theorem C6_order_independent_witness :
    Valid 751 [250, 500, 1000] ∧ [250, 500, 1000].Perm [1000, 250, 500] ∧
    ∃ plan s, CalculatePacksToShip 751 [250, 500, 1000] = .ok (plan, s) ∧
      CalculatePacksToShip 751 [1000, 250, 500] = .ok (plan, s) :=
  ⟨by decide, by decide,
    C6_order_independent 751 [250, 500, 1000] [1000, 250, 500] (by decide) (by decide)⟩

/-- C8, as stated, fails: the call with the slice 500, 250 leaves the caller's slice
holding 250, 500. -/
theorem C8_counterexample :
    Valid 1 [500, 250] ∧
    CalculatePacksToShip 1 [500, 250] = .ok ([(250, 1)], [250, 500]) ∧
    ([250, 500] : List Int) ≠ [500, 250] :=
  ⟨by decide, rfl, by decide⟩

/-- C8 (amended): after a valid call the caller's slice holds the same elements as
before, rearranged into ascending order; it is unchanged exactly when it was already
in ascending order. -/
theorem C8_slice_sorted (orderQty : Int) (packSizes : List Int)
    (h : Valid orderQty packSizes) :
    ∃ plan s, CalculatePacksToShip orderQty packSizes = .ok (plan, s) ∧
      s.Perm packSizes ∧ s.Sorted (· ≤ ·) ∧ (s = packSizes ↔ packSizes.Sorted (· ≤ ·)) := by
  obtain ⟨plan, _, T, e, _⟩ := CalculatePacksToShip_spec h
  refine ⟨plan, _, e, sortAsc_perm _, sortAsc_sorted _, ?_⟩
  constructor
  · intro h1
    have := sortAsc_sorted packSizes
    rwa [h1] at this
  · intro h1
    exact List.Sorted.insertionSort_eq h1

/-- C8, witness: the order 1 over the slice 500, 250. -/
theorem C8_slice_sorted_witness :
    Valid 1 [500, 250] ∧
    ∃ plan s, CalculatePacksToShip 1 [500, 250] = .ok (plan, s) ∧
      s.Perm [500, 250] ∧ s.Sorted (· ≤ ·) ∧
      (s = [500, 250] ↔ ([500, 250] : List Int).Sorted (· ≤ ·)) :=
  ⟨by decide, C8_slice_sorted 1 [500, 250] (by decide)⟩

/-! ### Order below the smallest pack -/

theorem greedyLoop_small (q : Int) (hq : 0 < q) :
    ∀ (ps : List Int), (∀ p ∈ ps, q < p) → greedyLoop ps [] q = .ok ([], q) := by
  intro ps
  induction ps with
  | nil => intro _; rfl
  | cons p ps ih =>
    intro h
    have hp := h p (List.mem_cons_self _ _)
    have h1 : ¬ q ≤ 0 := by omega
    have h2 : ¬ p = 0 := by omega
    have h3 : Int.tdiv q p = 0 := by
      rw [Int.tdiv_eq_ediv (by omega) (by omega)]
      exact Int.ediv_eq_zero_of_lt (by omega) hp
    have h4 : ¬ wrapInt 0 > 0 := by decide
    simp only [greedyLoop, h1, h2, if_false, h3, h4]
    exact ih (fun x hx => h x (List.mem_cons_of_mem _ hx))

theorem redistributeStep_single (all : List Int) (m : Int) (h0 : 0 < m) (hm : m ≤ maxInt)
    (p : Int) : redistributeStep all [(m, 1)] p = [(m, 1)] := by
  unfold redistributeStep
  simp only [GoMap.get_cons]
  by_cases hp : p = m
  · subst hp
    have hw : wrapInt (1 * p) = p := by
      rw [one_mul]; exact wrapInt_eq_self (by omega) hm
    have h1 : ¬ p ≤ 0 := by omega
    have hw1 : wrapInt 1 = 1 := by decide
    simp only [if_true, hw, h1, if_false, GoMap.delete_cons, GoMap.delete_nil]
    split_ifs
    · simp [GoMap.get, GoMap.lookup, GoMap.set, hw1]
    · rfl
  · have hw : wrapInt (GoMap.get [] p * p) ≤ 0 := by
      have : GoMap.get [] p = 0 := rfl
      rw [this, zero_mul]; decide
    simp only [hp, if_false, hw, if_true]

theorem redistribute_single (all : List Int) (m : Int) (h0 : 0 < m) (hm : m ≤ maxInt) :
    ∀ ps : List Int, redistribute all ps [(m, 1)] = [(m, 1)] := by
  intro ps
  induction ps with
  | nil => rfl
  | cons p ps ih =>
    simp only [redistribute, redistributeStep_single all m h0 hm p]
    exact ih

/-- C10 (order below the smallest pack): when the order quantity is smaller than the
smallest of the pack sizes, `m`, the plan is exactly one pack of size `m`. -/
theorem C10_below_smallest (orderQty : Int) (packSizes : List Int) (m : Int)
    (h : Valid orderQty packSizes) (hm : m ∈ packSizes) (hmin : ∀ p ∈ packSizes, m ≤ p)
    (hlt : orderQty < m) :
    ∃ s, CalculatePacksToShip orderQty packSizes = .ok ([(m, 1)], s) := by
  obtain ⟨hq0, hqm, hne, hl⟩ := h
  obtain ⟨s, e, hs, hsmin⟩ := getLast?_sortDesc hne
  have hsm : s = m := le_antisymm (hsmin m hm) (hmin s hs)
  subst hsm
  have e1 := greedyLoop_small orderQty hq0 (sortDesc packSizes)
    (fun p hp => lt_of_lt_of_le hlt (hmin p (mem_sortDesc.1 hp)))
  have hw1 : wrapInt 1 = 1 := by decide
  have e2 : topUp (sortDesc packSizes) [] orderQty = .ok [(s, 1)] := by
    have : orderQty > 0 := hq0
    simp [topUp, this, e, GoMap.get, GoMap.lookup, GoMap.set, hw1]
  refine ⟨sortAsc packSizes, ?_⟩
  simp only [CalculatePacksToShip, e1, e2, sortAsc_sortDesc,
    redistribute_single _ s (hl s hs).1 (hl s hs).2]

/-- C10, witness: the order 249 over the sizes 500, 250, 1000. -/
theorem C10_below_smallest_witness :
    Valid 249 [500, 250, 1000] ∧ (250 : Int) ∈ [500, 250, 1000] ∧
    (∀ p ∈ ([500, 250, 1000] : List Int), 250 ≤ p) ∧ (249 : Int) < 250 ∧
    ∃ s, CalculatePacksToShip 249 [500, 250, 1000] = .ok ([(250, 1)], s) :=
  ⟨by decide, by decide, by decide, by decide,
    C10_below_smallest 249 [500, 250, 1000] 250 (by decide) (by decide) (by decide)
      (by decide)⟩

/-! ### Duplicate pack sizes -/

theorem head_eq_of_sorted_mem {r : Int → Int → Prop} [IsAntisymm Int r] {a : Int}
    {t : List Int} (hs : (a :: t).Sorted r) (ha : a ∈ t) : ∃ t1, t = a :: t1 := by
  cases t with
  | nil => simp at ha
  | cons b t1 =>
    rw [List.sorted_cons] at hs
    have h1 : r a b := hs.1 b (List.mem_cons_self _ _)
    have h2 : r b a := by
      rcases List.mem_cons.1 ha with h | h
      · rw [h] at h1 ⊢; exact h1
      · exact (List.sorted_cons.1 hs.2).1 a h
    exact ⟨t1, by rw [antisymm h2 h1]⟩

theorem greedyLoop_of_nonpos (ps : List Int) (m : GoMap) {r : Int} (hr : r ≤ 0) :
    greedyLoop ps m r = .ok (m, r) := by
  cases ps with
  | nil => rfl
  | cons p ps => simp [greedyLoop, hr]

theorem greedyLoop_dup {a : Int} (ha : 0 < a) (t : List Int) (m : GoMap) {r : Int}
    (hrm : r ≤ maxInt) : greedyLoop (a :: a :: t) m r = greedyLoop (a :: t) m r := by
  by_cases hr : r ≤ 0
  · rw [greedyLoop_of_nonpos _ _ hr, greedyLoop_of_nonpos _ _ hr]
  · have ha0 : ¬ a = 0 := by omega
    obtain ⟨a1, a2, a3, a4, a5, a6⟩ := greedy_arith (show 0 < r by omega) hrm ha
    by_cases hd : r / a > 0
    · have e1 : ∀ L, greedyLoop (a :: L) m r = greedyLoop L (m.set a (r / a)) (r % a) := by
        intro L
        simp only [greedyLoop, hr, ha0, if_false, a1, hd, if_true, a3]
      rw [e1, e1]
      by_cases hr1 : r % a ≤ 0
      · rw [greedyLoop_of_nonpos _ _ hr1, greedyLoop_of_nonpos _ _ hr1]
      · have hf : 0 ≤ r / a * a := mul_nonneg a2 (le_of_lt ha)
        obtain ⟨b1, _⟩ := greedy_arith (show 0 < r % a by omega) (by omega) ha
        have hz : r % a / a = 0 := Int.ediv_eq_zero_of_lt a4 a5
        have hn : ¬ (0 : Int) > 0 := by omega
        simp only [greedyLoop, hr1, ha0, if_false, b1, hz, hn]
    · have e1 : ∀ L, greedyLoop (a :: L) m r = greedyLoop L m r := by
        intro L
        simp only [greedyLoop, hr, ha0, if_false, a1, hd]
      rw [e1 (a :: t)]

theorem greedyLoop_cons_congr {t1 t2 : List Int}
    (h : ∀ (m : GoMap) (r : Int), r ≤ maxInt → greedyLoop t1 m r = greedyLoop t2 m r)
    (a : Int) (m : GoMap) {r : Int} (hrm : r ≤ maxInt) :
    greedyLoop (a :: t1) m r = greedyLoop (a :: t2) m r := by
  simp only [greedyLoop]
  split_ifs
  · rfl
  · rfl
  · exact h _ _ (wrapInt_le_maxInt _)
  · exact h _ _ hrm

theorem greedyLoop_dedup :
    ∀ (L : List Int), L.Sorted (· ≥ ·) → (∀ p ∈ L, 0 < p) →
      ∀ (m : GoMap) (r : Int), r ≤ maxInt → greedyLoop L m r = greedyLoop L.dedup m r := by
  intro L
  induction L with
  | nil => intro _ _ m r _; rfl
  | cons a t ih =>
    intro hs hpos m r hrm
    have hst : t.Sorted (· ≥ ·) := (List.sorted_cons.1 hs).2
    have hpt : ∀ p ∈ t, 0 < p := fun p hp => hpos p (List.mem_cons_of_mem _ hp)
    by_cases ha : a ∈ t
    · obtain ⟨t1, rfl⟩ := head_eq_of_sorted_mem hs ha
      rw [List.dedup_cons_of_mem ha, greedyLoop_dup (hpos a (List.mem_cons_self _ _)) t1 m hrm]
      exact ih hst hpt m r hrm
    · rw [List.dedup_cons_of_not_mem ha]
      exact greedyLoop_cons_congr (fun m r hr => ih hst hpt m r hr) a m hrm

theorem wrapInt_wrapInt (x : Int) : wrapInt (wrapInt x) = wrapInt x := by
  unfold wrapInt; omega

theorem redistributeStep_WF (all : List Int) {m : GoMap} (h : m.WF) (p : Int) :
    (redistributeStep all m p).WF := by
  unfold redistributeStep
  simp only
  split_ifs
  · exact h
  · exact GoMap.WF_set _ _ (GoMap.WF_delete _ h)
  · exact h

theorem redistributeStep_idem (all : List Int) {m : GoMap} (h : m.WF) (p : Int) :
    redistributeStep all (redistributeStep all m p) p = redistributeStep all m p := by
  by_cases h1 : wrapInt (m.get p * p) ≤ 0
  · have e : redistributeStep all m p = m := by simp [redistributeStep, h1]
    rw [e, e]
  · by_cases h2 : wrapInt (m.get p * p) ∈ all
    · have e : redistributeStep all m p
          = (m.delete p).set (wrapInt (m.get p * p))
              (wrapInt ((m.delete p).get (wrapInt (m.get p * p)) + 1)) := by
        simp [redistributeStep, h1, h2]
      by_cases hself : wrapInt (m.get p * p) = p
      · rw [hself] at e h1 h2
        have hw1 : wrapInt (0 + 1) = 1 := by decide
        have hwp : wrapInt p = p := by rw [← hself]; exact wrapInt_wrapInt _
        have e1 : redistributeStep all m p = (m.delete p).set p 1 := by
          rw [e, GoMap.get_delete]; simp only [if_true, hw1]
        rw [e1]
        have hwf1 : ((m.delete p).set p 1).WF := GoMap.WF_set _ _ (GoMap.WF_delete _ h)
        have hget : ((m.delete p).set p 1).get p = 1 := by
          rw [GoMap.get_set]; simp
        have e2 : redistributeStep all ((m.delete p).set p 1) p
            = (((m.delete p).set p 1).delete p).set p 1 := by
          unfold redistributeStep
          simp only [hget, one_mul, hwp, h1, h2, if_false, if_true, GoMap.get_delete, hw1]
        rw [e2]
        apply GoMap.ext (GoMap.WF_set _ _ (GoMap.WF_delete _ hwf1)) hwf1
        intro x
        simp only [GoMap.lookup_set, GoMap.lookup_delete]
        split_ifs <;> rfl
      · rw [e]
        have hget : ((m.delete p).set (wrapInt (m.get p * p))
            (wrapInt ((m.delete p).get (wrapInt (m.get p * p)) + 1))).get p = 0 := by
          have hne : ¬ p = wrapInt (m.get p * p) := fun e => hself e.symm
          rw [GoMap.get_set, if_neg hne, GoMap.get_delete, if_pos rfl]
        have hz : wrapInt 0 ≤ 0 := by decide
        unfold redistributeStep
        simp only [hget, zero_mul, hz, if_true]
    · have e : redistributeStep all m p = m := by simp [redistributeStep, h1, h2]
      rw [e, e]

theorem redistribute_dedup (all : List Int) :
    ∀ (L : List Int), L.Sorted (· ≤ ·) → ∀ (m : GoMap), m.WF →
      redistribute all L m = redistribute all L.dedup m := by
  intro L
  induction L with
  | nil => intro _ m _; rfl
  | cons a t ih =>
    intro hs m hwf
    have hst : t.Sorted (· ≤ ·) := (List.sorted_cons.1 hs).2
    by_cases ha : a ∈ t
    · obtain ⟨t1, rfl⟩ := head_eq_of_sorted_mem hs ha
      rw [List.dedup_cons_of_mem ha, ← ih hst m hwf]
      simp only [redistribute, redistributeStep_idem all hwf a]
    · rw [List.dedup_cons_of_not_mem ha]
      simp only [redistribute]
      exact ih hst _ (redistributeStep_WF all hwf a)

theorem redistributeStep_congr_all {all1 all2 : List Int} (h : ∀ x, x ∈ all1 ↔ x ∈ all2)
    (m : GoMap) (p : Int) : redistributeStep all1 m p = redistributeStep all2 m p := by
  unfold redistributeStep
  simp only [h]

theorem redistribute_congr_all {all1 all2 : List Int} (h : ∀ x, x ∈ all1 ↔ x ∈ all2) :
    ∀ (ps : List Int) (m : GoMap), redistribute all1 ps m = redistribute all2 ps m := by
  intro ps
  induction ps with
  | nil => intro m; rfl
  | cons p ps ih =>
    intro m
    simp only [redistribute, redistributeStep_congr_all h, ih]

theorem sortDesc_dedup (l : List Int) : sortDesc l.dedup = (sortDesc l).dedup :=
  List.eq_of_perm_of_sorted
    ((sortDesc_perm _).trans (List.Perm.dedup (sortDesc_perm l).symm))
    (sortDesc_sorted _) ((sortDesc_sorted l).sublist (List.dedup_sublist _))

theorem sortAsc_dedup (l : List Int) : sortAsc l.dedup = (sortAsc l).dedup :=
  List.eq_of_perm_of_sorted
    ((sortAsc_perm _).trans (List.Perm.dedup (sortAsc_perm l).symm))
    (sortAsc_sorted _) ((sortAsc_sorted l).sublist (List.dedup_sublist _))

theorem topUp_congr {L1 L2 : List Int} (h : L1.getLast? = L2.getLast?) (m : GoMap)
    (r : Int) : topUp L1 m r = topUp L2 m r := by
  unfold topUp; rw [h]

/-- C7 (duplicate pack sizes are ignored): for a valid order, a list of pack sizes with
repeated values gives the same plan as the list with the duplicates removed. -/
theorem C7_duplicates_ignored (orderQty : Int) (packSizes : List Int)
    (h : Valid orderQty packSizes) :
    ∃ plan s1 s2, CalculatePacksToShip orderQty packSizes = .ok (plan, s1) ∧
      CalculatePacksToShip orderQty packSizes.dedup = .ok (plan, s2) := by
  obtain ⟨hq0, hqm, hne, hl⟩ := h
  have hl1 : AllPos packSizes := hl
  have hne1 : packSizes.dedup ≠ [] := by
    intro hd
    cases hps : packSizes with
    | nil => exact hne hps
    | cons a t =>
      have : a ∈ packSizes.dedup := List.mem_dedup.2 (by rw [hps]; exact List.mem_cons_self _ _)
      rw [hd] at this
      simp at this
  have hinv0 : GInv packSizes orderQty [] orderQty :=
    ⟨GoMap.WF_nil, by intro e he; simp at he, le_of_lt hq0, hqm, by simp [GoMap.total],
      by intro e he; simp at he⟩
  obtain ⟨m, r, e1, hinv, _, _⟩ :=
    greedyLoop_spec hl1 orderQty (sortDesc packSizes) [] orderQty
      (fun p hp => mem_sortDesc.1 hp) hinv0
  obtain ⟨m1, s, el, hs, hmin, e2, hp⟩ := topUp_spec hl1 hne hqm hinv
  have e1d : greedyLoop (sortDesc packSizes.dedup) [] orderQty = .ok (m, r) := by
    rw [sortDesc_dedup, ← greedyLoop_dedup _ (sortDesc_sorted _)
      (fun p hp => (hl p (mem_sortDesc.1 hp)).1) [] orderQty hqm]
    exact e1
  have eld : (sortDesc packSizes.dedup).getLast? = (sortDesc packSizes).getLast? := by
    obtain ⟨s1, el1, hs1, hmin1⟩ := getLast?_sortDesc hne1
    have : s1 = s :=
      le_antisymm (hmin1 s (List.mem_dedup.2 hs)) (hmin s1 (List.mem_dedup.1 hs1))
    rw [el1, el, this]
  have e2d : topUp (sortDesc packSizes.dedup) m r = .ok m1 := by
    rw [topUp_congr eld]; exact e2
  have e3 : redistribute (sortAsc packSizes.dedup) (sortAsc packSizes.dedup) m1
      = redistribute (sortAsc packSizes) (sortAsc packSizes) m1 := by
    rw [sortAsc_dedup, redistribute_dedup (sortAsc packSizes) _ (sortAsc_sorted _) m1 hp.1]
    exact redistribute_congr_all (fun x => List.mem_dedup) _ _
  refine ⟨redistribute (sortAsc packSizes) (sortAsc packSizes) m1, sortAsc packSizes,
    sortAsc packSizes.dedup, ?_, ?_⟩
  · simp only [CalculatePacksToShip, e1, e2, sortAsc_sortDesc]
  · simp only [CalculatePacksToShip, e1d, e2d, sortAsc_sortDesc, e3]

/-- C7, witness: the order 12 over the sizes 5, 2, 5, 10, 2. -/
theorem C7_duplicates_ignored_witness :
    Valid 12 [5, 2, 5, 10, 2] ∧
    ∃ plan s1 s2, CalculatePacksToShip 12 [5, 2, 5, 10, 2] = .ok (plan, s1) ∧
      CalculatePacksToShip 12 ([5, 2, 5, 10, 2] : List Int).dedup = .ok (plan, s2) :=
  ⟨by decide, C7_duplicates_ignored 12 [5, 2, 5, 10, 2] (by decide)⟩

/-! ### Minimality -/

theorem dvd_total {d : Int} {l : List Int} (hd : ∀ p ∈ l, d ∣ p) :
    ∀ (c : GoMap), IsCombination l c → d ∣ c.total := by
  intro c
  induction c with
  | nil => intro _; simp [GoMap.total]
  | cons e t ih =>
    intro hc
    obtain ⟨k, v⟩ := e
    rw [GoMap.total_cons]
    have h1 := (hc (k, v) (List.mem_cons_self _ _)).1
    exact dvd_add (Dvd.dvd.mul_right (hd k h1) v)
      (ih (fun e he => hc e (List.mem_cons_of_mem _ he)))

/-- C2 at the failing input: for the order 6 over the sizes 3 and 5 the function returns
one pack of 3 and one pack of 5, a total of 8, although two packs of 3 cover the order
with a total of 6. -/
theorem C2_not_minimal_quantity :
    Valid 6 [3, 5] ∧
    CalculatePacksToShip 6 [3, 5] = .ok ([(3, 1), (5, 1)], [3, 5]) ∧
    GoMap.total [(3, 1), (5, 1)] = 8 ∧
    IsCombination [3, 5] [(3, 2)] ∧ GoMap.total [(3, 2)] = 6 :=
  ⟨by decide, rfl, by decide, by decide, by decide⟩

/-- C3 at the failing input: for the order 4751 over the sizes 250, 500, 1000, 2000, 5000
the function returns one pack of 1000 and two packs of 2000, three packs with the total
5000; no combination covering the order has a smaller total, and a single pack of 5000
reaches the same total with one pack. -/
theorem C3_not_fewest_packs :
    Valid 4751 [250, 500, 1000, 2000, 5000] ∧
    CalculatePacksToShip 4751 [250, 500, 1000, 2000, 5000]
      = .ok ([(1000, 1), (2000, 2)], [250, 500, 1000, 2000, 5000]) ∧
    GoMap.total [(1000, 1), (2000, 2)] = 5000 ∧ GoMap.packs [(1000, 1), (2000, 2)] = 3 ∧
    (∀ c, IsCombination [250, 500, 1000, 2000, 5000] c → 4751 ≤ c.total → 5000 ≤ c.total) ∧
    IsCombination [250, 500, 1000, 2000, 5000] [(5000, 1)] ∧
    GoMap.total [(5000, 1)] = 5000 ∧ GoMap.packs [(5000, 1)] = 1 := by
  refine ⟨by decide, rfl, by decide, by decide, ?_, by decide, by decide, by decide⟩
  intro c hc hle
  have hd : ∀ p ∈ ([250, 500, 1000, 2000, 5000] : List Int), (250 : Int) ∣ p := by decide
  obtain ⟨k, hk⟩ := dvd_total hd c hc
  omega

/-! ### The faults are reachable outside the preconditions -/

theorem fault_on_empty : CalculatePacksToShip 1 [] = .error Fault.indexOutOfRange := rfl

theorem fault_on_zero_size : CalculatePacksToShip 1 [0] = .error Fault.divideByZero := rfl

/-! ### The redistribution loop, case by case -/

theorem GoMap.packs_cons (k v : Int) (t : GoMap) :
    GoMap.packs ((k, v) :: t) = v + GoMap.packs t := by
  simp [GoMap.packs]

theorem GoMap.packs_delete {m : GoMap} (k : Int) (h : m.WF) :
    (m.delete k).packs = m.packs - m.get k := by
  induction m with
  | nil => simp [GoMap.delete, GoMap.packs, GoMap.get, GoMap.lookup]
  | cons a t ih =>
    obtain ⟨k', v'⟩ := a
    rw [GoMap.WF_cons] at h
    rw [GoMap.delete_cons, GoMap.get_cons, GoMap.packs_cons]
    by_cases h1 : k' = k
    · subst h1
      simp only [if_true]
      rw [ih h.2, GoMap.get_eq_zero_of_lt h.1]; ring
    · have h2 : ¬ k = k' := fun e => h1 e.symm
      simp only [h1, h2, if_false]
      rw [GoMap.packs_cons, ih h.2]; ring

theorem GoMap.packs_set {m : GoMap} (k v : Int) (h : m.WF) :
    (m.set k v).packs = m.packs - m.get k + v := by
  induction m with
  | nil => simp [GoMap.set, GoMap.packs, GoMap.get, GoMap.lookup]
  | cons a t ih =>
    obtain ⟨k', v'⟩ := a
    rw [GoMap.WF_cons] at h
    rw [GoMap.get_cons, GoMap.packs_cons]
    by_cases h1 : k < k'
    · have h2 : ¬ k = k' := by omega
      simp only [GoMap.set, h1, h2, if_true, if_false]
      rw [GoMap.packs_cons, GoMap.packs_cons,
        GoMap.get_eq_zero_of_lt (fun e he => lt_trans h1 (h.1 e he))]; ring
    · by_cases h2 : k = k'
      · subst h2
        simp only [GoMap.set, h1, if_false, if_true]
        rw [GoMap.packs_cons]; ring
      · simp only [GoMap.set, h1, h2, if_false]
        rw [GoMap.packs_cons, ih h.2]; ring

theorem not_mem_of_gt_maxInt {l all : List Int} (hl : AllPos l) (hall : ∀ x ∈ all, x ∈ l)
    {x : Int} (hx : maxInt < x) : x ∉ all := by
  intro h
  have := (hl x (hall x h)).2
  omega

theorem redistributeStep_cases {l all : List Int} (hl : AllPos l) (hall : ∀ x ∈ all, x ∈ l)
    {T : Int} (hT : T ≤ 2 * maxInt) {m : GoMap} (h : PInv l T m) (p : Int) :
    (redistributeStep all m p = m ∧ (0 < m.get p → m.get p * p ∉ all)) ∨
    (0 < m.get p ∧ p ∈ l ∧ m.get p * p ∈ all ∧
      redistributeStep all m p
        = (m.delete p).set (m.get p * p) ((m.delete p).get (m.get p * p) + 1)) := by
  obtain ⟨hwf, hg, htot⟩ := h
  have hn0 := hg.get_nonneg p
  have hle := GoMap.mul_get_le_total (hg.prod_nonneg hl) p
  have hcomm : m.get p * p = p * m.get p := mul_comm _ _
  have hex : 0 < m.get p → m.get p * p ≤ maxInt →
      wrapInt (m.get p * p) = m.get p * p ∧ 0 < m.get p * p := by
    intro hpos hmax
    have hpl := hl p (hg.get_pos_mem hpos)
    have : 0 < m.get p * p := mul_pos hpos hpl.1
    exact ⟨wrapInt_eq_self (by omega) hmax, this⟩
  by_cases h1 : wrapInt (m.get p * p) ≤ 0
  · left
    refine ⟨by simp [redistributeStep, h1], ?_⟩
    intro hpos
    by_cases hmax : m.get p * p ≤ maxInt
    · have := hex hpos hmax
      omega
    · exact not_mem_of_gt_maxInt hl hall (by omega)
  · by_cases h2 : wrapInt (m.get p * p) ∈ all
    · right
      have hnp : m.get p * p ≤ maxInt := by
        by_contra hc
        have := wrapInt_neg_of_overflow (x := m.get p * p) (by omega)
          (by unfold maxInt at hT; omega)
        omega
      have hn1 : 0 < m.get p := by
        rcases eq_or_lt_of_le hn0 with h0 | h0
        · rw [← h0, zero_mul] at h1; exact absurd (by decide : wrapInt 0 ≤ 0) h1
        · exact h0
      have hpl := hl p (hg.get_pos_mem hn1)
      obtain ⟨hw, hpos⟩ := hex hn1 hnp
      rw [hw] at h2
      have hg1 := hg.delete p
      have htot1 := GoMap.total_delete p hwf
      have hc0 := hg1.get_nonneg (m.get p * p)
      have hle1 := GoMap.mul_get_le_total (hg1.prod_nonneg hl) (m.get p * p)
      have hcm : (m.delete p).get (m.get p * p) + 1 ≤ maxInt := by
        by_cases hself : m.get p * p = p
        · rw [hself, GoMap.get_delete]; simp [maxInt]
        · have hn2 : 2 ≤ m.get p := by
            by_contra hc
            have : m.get p = 1 := by omega
            rw [this] at hself; simp at hself
          have h2p : 2 ≤ m.get p * p := by
            have := mul_le_mul hn2 (show (1 : Int) ≤ p by omega) (by omega) (by omega)
            simpa using this
          have := mul_le_mul_of_nonneg_right h2p hc0
          omega
      have hw2 : wrapInt ((m.delete p).get (m.get p * p) + 1)
          = (m.delete p).get (m.get p * p) + 1 := wrapInt_eq_self (by omega) hcm
      refine ⟨hn1, hg.get_pos_mem hn1, h2, ?_⟩
      have h1' : ¬ m.get p * p ≤ 0 := by omega
      unfold redistributeStep
      simp only [hw, h1', h2, if_false, if_true, hw2]
    · left
      refine ⟨by simp [redistributeStep, h1, h2], ?_⟩
      intro hpos
      by_cases hmax : m.get p * p ≤ maxInt
      · rw [(hex hpos hmax).1] at h2; exact h2
      · exact not_mem_of_gt_maxInt hl hall (by omega)

theorem redistributeStep_packs {l all : List Int} (hl : AllPos l) (hall : ∀ x ∈ all, x ∈ l)
    {T : Int} (hT : T ≤ 2 * maxInt) {m : GoMap} (h : PInv l T m) (p : Int) :
    (redistributeStep all m p).packs ≤ m.packs := by
  rcases redistributeStep_cases hl hall hT h p with ⟨e, _⟩ | ⟨hpos, _, _, e⟩
  · rw [e]
  · rw [e, GoMap.packs_set _ _ (GoMap.WF_delete _ h.1), GoMap.packs_delete _ h.1]
    omega

theorem redistribute_packs {l all : List Int} (hl : AllPos l) (hall : ∀ x ∈ all, x ∈ l)
    {T : Int} (hT : T ≤ 2 * maxInt) :
    ∀ (ps : List Int) (m : GoMap), PInv l T m → (redistribute all ps m).packs ≤ m.packs := by
  intro ps
  induction ps with
  | nil => intro m _; exact le_refl _
  | cons p ps ih =>
    intro m h
    exact le_trans (ih _ (redistributeStep_spec hl hall hT h p))
      (redistributeStep_packs hl hall hT h p)

/-! ### The three phases of a valid call -/

theorem CalculatePacksToShip_phases {q : Int} {l : List Int} (h : Valid q l) :
    ∃ m r m1 s, greedyLoop (sortDesc l) [] q = .ok (m, r) ∧ GInv l q m r ∧
      (∀ p ∈ l, r < p) ∧ s ∈ l ∧ (∀ p ∈ l, s ≤ p) ∧
      topUp (sortDesc l) m r = .ok m1 ∧
      PInv l (if r > 0 then q - r + s else q) m1 ∧
      (if r > 0 then q - r + s else q) ≤ 2 * maxInt ∧
      CalculatePacksToShip q l
        = .ok (redistribute (sortAsc l) (sortAsc l) m1, sortAsc l) := by
  obtain ⟨hq0, hqm, hne, hl⟩ := h
  have hl1 : AllPos l := hl
  have hinv0 : GInv l q [] q :=
    ⟨GoMap.WF_nil, by intro e he; simp at he, le_of_lt hq0, hqm, by simp [GoMap.total],
      by intro e he; simp at he⟩
  obtain ⟨m, r, e1, hinv, _, hlt⟩ :=
    greedyLoop_spec hl1 q (sortDesc l) [] q (fun p hp => mem_sortDesc.1 hp) hinv0
  obtain ⟨m1, s, _, hs, hmin, e2, hp⟩ := topUp_spec hl1 hne hqm hinv
  have hr0 : 0 ≤ r := hinv.2.2.1
  have hsm := (hl s hs).2
  have hT : (if r > 0 then q - r + s else q) ≤ 2 * maxInt := by
    split_ifs <;> omega
  refine ⟨m, r, m1, s, e1, hinv, fun p hp => hlt p (mem_sortDesc.2 hp), hs, hmin, e2, hp,
    hT, ?_⟩
  simp only [CalculatePacksToShip, e1, e2, sortAsc_sortDesc]

theorem redistribute_no_mergeable {l all : List Int} (hl : AllPos l)
    (hall : ∀ x ∈ all, x ∈ l) {T : Int} (hT : T ≤ 2 * maxInt) :
    ∀ (rest : List Int) (m : GoMap), rest.Sorted (· ≤ ·) → PInv l T m →
      (∀ x ∈ all, x ∉ rest → ∀ y ∈ rest, x ≤ y) →
      (∀ e ∈ m, e.1 ∉ rest → 2 ≤ e.2 → e.2 * e.1 ∉ all) →
      ∀ e ∈ redistribute all rest m, 2 ≤ e.2 → e.2 * e.1 ∉ all := by
  intro rest
  induction rest with
  | nil =>
    intro m _ _ _ hJ e he
    exact hJ e he (by simp)
  | cons p rest ih =>
    intro m hs hP hH hJ
    have hs1 := List.sorted_cons.1 hs
    have hP1 := redistributeStep_spec hl hall hT hP p
    have hH1 : ∀ x ∈ all, x ∉ rest → ∀ y ∈ rest, x ≤ y := by
      intro x hx hxr y hy
      by_cases hxp : x = p
      · rw [hxp]; exact hs1.1 y hy
      · exact hH x hx (by simp [hxp, hxr]) y (List.mem_cons_of_mem _ hy)
    apply ih _ hs1.2 hP1 hH1
    intro e he her h2
    rcases redistributeStep_cases hl hall hT hP p with ⟨e1, hno⟩ | ⟨hpos, hpl, hin, e1⟩
    · rw [e1] at he
      by_cases hep : e.1 = p
      · have hget : m.get p = e.2 := by
          have := (GoMap.mem_iff_lookup hP.1 e.1 e.2).1 he
          rw [hep] at this
          unfold GoMap.get; rw [this]; rfl
        rw [hep, ← hget]
        exact hno (by omega)
      · exact hJ e he (by simp [hep, her]) h2
    · rw [e1] at he
      rcases GoMap.mem_set he with rfl | he
      · exfalso
        simp only at her h2
        by_cases hc1 : m.get p = 1
        · rw [hc1, one_mul, GoMap.get_delete] at h2
          simp at h2
        · have hp0 := (hl p hpl).1
          have hgt : p < m.get p * p := by
            have := mul_le_mul_of_nonneg_right (show (2 : Int) ≤ m.get p by omega)
              (le_of_lt hp0)
            omega
          have hle := hH _ hin (by
            intro hmem
            rcases List.mem_cons.1 hmem with h | h
            · omega
            · exact her h) p (List.mem_cons_self _ _)
          omega
      · have := GoMap.mem_delete.1 he
        exact hJ e this.1 (by simp [this.2, her]) h2

/-- C17 (no mergeable entry survives): in the plan returned for a valid call there is
no entry with a count of two or more whose count times size is itself one of the
pack sizes. -/
theorem C17_no_mergeable_entry (orderQty : Int) (packSizes : List Int)
    (h : Valid orderQty packSizes) :
    ∃ plan s, CalculatePacksToShip orderQty packSizes = .ok (plan, s) ∧
      ∀ e ∈ plan, 2 ≤ e.2 → e.2 * e.1 ∉ packSizes := by
  obtain ⟨m, r, m1, s, _, _, _, _, _, _, hP, hT, e⟩ := CalculatePacksToShip_phases h
  refine ⟨_, _, e, ?_⟩
  intro en hen h2 hmem
  have hall : ∀ x ∈ sortAsc packSizes, x ∈ packSizes := fun x hx => mem_sortAsc.1 hx
  exact redistribute_no_mergeable h.2.2.2 hall hT (sortAsc packSizes) m1 (sortAsc_sorted _) hP
    (fun x hx hxr => absurd hx hxr)
    (fun e0 he0 hr => absurd (mem_sortAsc.2 (hP.2.1 e0 he0).1) hr)
    en hen h2 (mem_sortAsc.2 hmem)

/-- C17, witness: the order 751 over the sizes 250, 500, 1000. -/
theorem C17_no_mergeable_entry_witness :
    Valid 751 [250, 500, 1000] ∧
    ∃ plan s, CalculatePacksToShip 751 [250, 500, 1000] = .ok (plan, s) ∧
      ∀ e ∈ plan, 2 ≤ e.2 → e.2 * e.1 ∉ ([250, 500, 1000] : List Int) :=
  ⟨by decide, C17_no_mergeable_entry 751 [250, 500, 1000] (by decide)⟩

/-- C18 (consolidation preserves quantity): for a valid call the redistribution loop
leaves the total quantity equal to that of the plan after the greedy loop and the
top-up, and does not increase the total number of packs. -/
theorem C18_consolidation_preserves (orderQty : Int) (packSizes : List Int)
    (h : Valid orderQty packSizes) :
    ∃ m r m1 s, greedyLoop (sortDesc packSizes) [] orderQty = .ok (m, r) ∧
      topUp (sortDesc packSizes) m r = .ok m1 ∧
      CalculatePacksToShip orderQty packSizes
        = .ok (redistribute (sortAsc packSizes) (sortAsc packSizes) m1, s) ∧
      (redistribute (sortAsc packSizes) (sortAsc packSizes) m1).total = m1.total ∧
      (redistribute (sortAsc packSizes) (sortAsc packSizes) m1).packs ≤ m1.packs := by
  obtain ⟨m, r, m1, s, e1, _, _, _, _, e2, hP, hT, e⟩ := CalculatePacksToShip_phases h
  have hall : ∀ x ∈ sortAsc packSizes, x ∈ packSizes := fun x hx => mem_sortAsc.1 hx
  refine ⟨m, r, m1, _, e1, e2, e, ?_, ?_⟩
  · rw [(redistribute_spec h.2.2.2 hall hT (sortAsc packSizes) m1 hP).2.2, hP.2.2]
  · exact redistribute_packs h.2.2.2 hall hT (sortAsc packSizes) m1 hP

/-- C18, witness: the order 751 over the sizes 250, 500, 1000. -/
theorem C18_consolidation_preserves_witness :
    Valid 751 [250, 500, 1000] ∧
    ∃ m r m1 s, greedyLoop (sortDesc [250, 500, 1000]) [] 751 = .ok (m, r) ∧
      topUp (sortDesc [250, 500, 1000]) m r = .ok m1 ∧
      CalculatePacksToShip 751 [250, 500, 1000]
        = .ok (redistribute (sortAsc [250, 500, 1000]) (sortAsc [250, 500, 1000]) m1, s) ∧
      (redistribute (sortAsc [250, 500, 1000]) (sortAsc [250, 500, 1000]) m1).total
        = m1.total ∧
      (redistribute (sortAsc [250, 500, 1000]) (sortAsc [250, 500, 1000]) m1).packs
        ≤ m1.packs :=
  ⟨by decide, C18_consolidation_preserves 751 [250, 500, 1000] (by decide)⟩

/-- C19 (bounded overshoot): for a valid call over pack sizes with minimum `m` the total
quantity of the plan is at least the order quantity and less than the order quantity
plus `m`; it equals the order quantity when the greedy loop leaves no remainder. -/
theorem C19_bounded_overshoot (orderQty : Int) (packSizes : List Int) (m : Int)
    (h : Valid orderQty packSizes) (hm : m ∈ packSizes) (hmin : ∀ p ∈ packSizes, m ≤ p) :
    ∃ plan s mg r, CalculatePacksToShip orderQty packSizes = .ok (plan, s) ∧
      greedyLoop (sortDesc packSizes) [] orderQty = .ok (mg, r) ∧
      orderQty ≤ plan.total ∧ plan.total < orderQty + m ∧
      (r = 0 → plan.total = orderQty) := by
  obtain ⟨mg, r, m1, s, e1, hG, hlt, hs, hsmin, _, hP, hT, e⟩ := CalculatePacksToShip_phases h
  have hall : ∀ x ∈ sortAsc packSizes, x ∈ packSizes := fun x hx => mem_sortAsc.1 hx
  have htot := (redistribute_spec h.2.2.2 hall hT (sortAsc packSizes) m1 hP).2.2
  have hsm : s = m := le_antisymm (hsmin m hm) (hmin s hs)
  subst hsm
  have hr0 : 0 ≤ r := hG.2.2.1
  have hrs := hlt s hs
  have hs0 := (h.2.2.2 s hs).1
  refine ⟨_, _, mg, r, e, e1, ?_, ?_, ?_⟩
  · rw [htot]; split_ifs <;> omega
  · rw [htot]; split_ifs <;> omega
  · intro hr; rw [htot, hr]; simp

/-- C19, witness: the order 12001 over the sizes 250, 500, 1000, 2000, 5000. -/
theorem C19_bounded_overshoot_witness :
    Valid 12001 [250, 500, 1000, 2000, 5000] ∧
    (250 : Int) ∈ [250, 500, 1000, 2000, 5000] ∧
    (∀ p ∈ ([250, 500, 1000, 2000, 5000] : List Int), 250 ≤ p) ∧
    ∃ plan s mg r,
      CalculatePacksToShip 12001 [250, 500, 1000, 2000, 5000] = .ok (plan, s) ∧
      greedyLoop (sortDesc [250, 500, 1000, 2000, 5000]) [] 12001 = .ok (mg, r) ∧
      12001 ≤ plan.total ∧ plan.total < 12001 + 250 ∧ (r = 0 → plan.total = 12001) :=
  ⟨by decide, by decide, by decide,
    C19_bounded_overshoot 12001 [250, 500, 1000, 2000, 5000] 250 (by decide) (by decide)
      (by decide)⟩

theorem ceil_unique {q m k : Int} (hm : 0 < m) (h1 : q ≤ m * k) (h2 : m * k < q + m) :
    k = (q + m - 1) / m := by
  apply le_antisymm
  · apply Int.le_ediv_of_mul_le hm
    rw [mul_comm]; omega
  · have : (q + m - 1) / m < k + 1 := by
      apply Int.ediv_lt_of_lt_mul hm
      have : (k + 1) * m = m * k + m := by ring
      omega
    omega

theorem Good.isCombination {l : List Int} {m : GoMap} (h : Good l m) : IsCombination l m := by
  intro e he
  have := h e he
  exact ⟨this.1, by omega⟩

/-- C20 (exact minimum under divisibility): when the smallest pack size `m` divides
every pack size, the total quantity of the plan returned for a valid call is
`m * ceil(orderQty / m)`, and no combination of whole packs covers the order with a
smaller total. -/
theorem C20_exact_minimum (orderQty : Int) (packSizes : List Int) (m : Int)
    (h : Valid orderQty packSizes) (hm : m ∈ packSizes) (hmin : ∀ p ∈ packSizes, m ≤ p)
    (hdiv : ∀ p ∈ packSizes, m ∣ p) :
    ∃ plan s, CalculatePacksToShip orderQty packSizes = .ok (plan, s) ∧
      IsCombination packSizes plan ∧
      plan.total = m * ((orderQty + m - 1) / m) ∧
      ∀ c, IsCombination packSizes c → orderQty ≤ c.total → plan.total ≤ c.total := by
  obtain ⟨plan, s, T, e, hs, hsmin, hP, hqT, hTq⟩ := CalculatePacksToShip_spec h
  have hsm : s = m := le_antisymm (hsmin m hm) (hmin s hs)
  subst hsm
  have hs0 := (h.2.2.2 s hs).1
  have hcomb := hP.2.1.isCombination
  obtain ⟨k, hk⟩ := dvd_total hdiv plan hcomb
  rw [hP.2.2] at hk
  have hkc : k = (orderQty + s - 1) / s := ceil_unique hs0 (by omega) (by omega)
  refine ⟨plan, _, e, hcomb, by rw [hP.2.2, hk, hkc], ?_⟩
  intro c hc hle
  obtain ⟨j, hj⟩ := dvd_total hdiv c hc
  rw [hP.2.2, hk, hj]
  have h1 : s * k < s * (j + 1) := by
    have : s * (j + 1) = s * j + s := by ring
    omega
  have h2 : k < j + 1 := lt_of_mul_lt_mul_left h1 (le_of_lt hs0)
  exact mul_le_mul_of_nonneg_left (by omega) (le_of_lt hs0)

/-- C20, witness: the order 12001 over the sizes 250, 500, 1000, 2000, 5000. -/
theorem C20_exact_minimum_witness :
    Valid 12001 [250, 500, 1000, 2000, 5000] ∧
    (250 : Int) ∈ [250, 500, 1000, 2000, 5000] ∧
    (∀ p ∈ ([250, 500, 1000, 2000, 5000] : List Int), 250 ≤ p) ∧
    (∀ p ∈ ([250, 500, 1000, 2000, 5000] : List Int), (250 : Int) ∣ p) ∧
    ∃ plan s, CalculatePacksToShip 12001 [250, 500, 1000, 2000, 5000] = .ok (plan, s) ∧
      IsCombination [250, 500, 1000, 2000, 5000] plan ∧
      plan.total = 250 * ((12001 + 250 - 1) / 250) ∧
      ∀ c, IsCombination [250, 500, 1000, 2000, 5000] c → 12001 ≤ c.total →
        plan.total ≤ c.total :=
  ⟨by decide, by decide, by decide, by decide,
    C20_exact_minimum 12001 [250, 500, 1000, 2000, 5000] 250 (by decide) (by decide)
      (by decide) (by decide)⟩

/-- C11 (single pack size): with the single pack size `s` the plan for a valid order is
exactly `ceil(orderQty / s)` packs of size `s`. -/
theorem C11_single_size (orderQty : Int) (s : Int) (h : Valid orderQty [s]) :
    ∃ sl, CalculatePacksToShip orderQty [s] = .ok ([(s, (orderQty + s - 1) / s)], sl) := by
  obtain ⟨plan, s1, T, e, hs, _, hP, hqT, hTq⟩ := CalculatePacksToShip_spec h
  have hs1 : s1 = s := by simpa using hs
  subst hs1
  have hs0 : 0 < s1 := (h.2.2.2 s1 (by simp)).1
  have hq0 := h.1
  obtain ⟨hwf, hg, htot⟩ := hP
  have hkey : ∀ e ∈ plan, e.1 = s1 := fun e he => by simpa using (hg e he).1
  have hplan : plan = [(s1, (orderQty + s1 - 1) / s1)] := by
    cases plan with
    | nil => simp [GoMap.total] at htot; omega
    | cons a t =>
      obtain ⟨k, c⟩ := a
      have hk : k = s1 := hkey (k, c) (List.mem_cons_self _ _)
      subst hk
      cases t with
      | nil =>
        rw [GoMap.total_cons, GoMap.total_nil] at htot
        have hc : c = (orderQty + k - 1) / k := ceil_unique hs0 (by omega) (by omega)
        rw [← hc]
      | cons b t =>
        exfalso
        rw [GoMap.WF_cons] at hwf
        have h1 := hwf.1 b (List.mem_cons_self _ _)
        have h2 := hkey b (List.mem_cons_of_mem _ (List.mem_cons_self _ _))
        omega
  exact ⟨_, by rw [e, hplan]⟩

/-- C11, witness: the order 600 over the single size 250. -/
theorem C11_single_size_witness :
    Valid 600 [250] ∧
    ∃ sl, CalculatePacksToShip 600 [250] = .ok ([(250, (600 + 250 - 1) / 250)], sl) :=
  ⟨by decide, C11_single_size 600 250 (by decide)⟩

/-! ### Exactly divisible orders -/

theorem greedyLoop_divisible {q s : Int} (hq0 : 0 < q) (hqm : q ≤ maxInt) (hs0 : 0 < s)
    (hdvd : s ∣ q) :
    ∀ (ps : List Int), ps.Sorted (· ≥ ·) → (∀ p ∈ ps, 0 < p) → s ∈ ps →
      (∀ p ∈ ps, s < p → q < p) → greedyLoop ps [] q = .ok ([(s, q / s)], 0) := by
  intro ps
  induction ps with
  | nil => intro _ _ hs; simp at hs
  | cons a t ih =>
    intro hsort hpos hs hbig
    have hsort1 := List.sorted_cons.1 hsort
    have h1 : ¬ q ≤ 0 := by omega
    by_cases has : a = s
    · subst has
      obtain ⟨a1, a2, a3, a4, a5, a6⟩ := greedy_arith hq0 hqm hs0
      have hmod : q % a = 0 := Int.emod_eq_zero_of_dvd hdvd
      have hd : q / a > 0 := by
        rcases lt_or_eq_of_le a2 with h | h
        · exact h
        · rw [← h, hmod] at a6; omega
      have ha0 : ¬ a = 0 := by omega
      simp only [greedyLoop, h1, ha0, if_false, a1, hd, if_true, a3, hmod]
      exact greedyLoop_of_nonpos _ _ (le_refl _)
    · have hst : s ∈ t := by
        rcases List.mem_cons.1 hs with h | h
        · exact absurd h.symm has
        · exact h
      have hge : a ≥ s := hsort1.1 s hst
      have hlt : q < a := hbig a (List.mem_cons_self _ _) (by omega)
      have ha0 : ¬ a = 0 := by omega
      have h3 : Int.tdiv q a = 0 := by
        rw [Int.tdiv_eq_ediv (by omega) (by omega)]
        exact Int.ediv_eq_zero_of_lt (by omega) hlt
      have h4 : ¬ wrapInt 0 > 0 := by decide
      simp only [greedyLoop, h1, ha0, if_false, h3, h4]
      exact ih hsort1.2 (fun p hp => hpos p (List.mem_cons_of_mem _ hp)) hst
        (fun p hp => hbig p (List.mem_cons_of_mem _ hp))

theorem redistributeStep_singleton (all : List Int) {s k : Int} (hs0 : 0 < s) (hk : 1 ≤ k)
    (hmax : k * s ≤ maxInt) (hone : k * s ∈ all → k = 1) (p : Int) :
    redistributeStep all [(s, k)] p = [(s, k)] := by
  unfold redistributeStep
  simp only [GoMap.get_cons]
  by_cases hp : p = s
  · subst hp
    have hpos : 0 < k * p := mul_pos (by omega) hs0
    have hw : wrapInt (k * p) = k * p := wrapInt_eq_self (by omega) hmax
    have h1 : ¬ k * p ≤ 0 := by omega
    have hw1 : wrapInt 1 = 1 := by decide
    simp only [if_true, hw, h1, if_false]
    split_ifs with hin
    · have := hone hin
      subst this
      simp [GoMap.delete_cons, GoMap.delete_nil, GoMap.get, GoMap.lookup, GoMap.set, hw1]
    · rfl
  · have hw : wrapInt (GoMap.get [] p * p) ≤ 0 := by
      have : GoMap.get [] p = 0 := rfl
      rw [this, zero_mul]; decide
    simp only [hp, if_false, hw, if_true]

theorem redistribute_singleton (all : List Int) {s k : Int} (hs0 : 0 < s) (hk : 1 ≤ k)
    (hmax : k * s ≤ maxInt) (hone : k * s ∈ all → k = 1) :
    ∀ ps : List Int, redistribute all ps [(s, k)] = [(s, k)] := by
  intro ps
  induction ps with
  | nil => rfl
  | cons p ps ih =>
    simp only [redistribute, redistributeStep_singleton all hs0 hk hmax hone p]
    exact ih

/-- C12, as stated, fails: 500 is an exact multiple of the pack size 250, yet the plan
for the order 500 over the sizes 250, 500, 1000, 2000, 5000 is one pack of 500 and has
no pack of 250. -/
theorem C12_counterexample :
    Valid 500 [250, 500, 1000, 2000, 5000] ∧
    (250 : Int) ∈ [250, 500, 1000, 2000, 5000] ∧ (250 : Int) ∣ 500 ∧
    CalculatePacksToShip 500 [250, 500, 1000, 2000, 5000]
      = .ok ([(500, 1)], [250, 500, 1000, 2000, 5000]) ∧
    ¬ (∀ e ∈ ([(500, 1)] : GoMap), e.1 = 250) :=
  ⟨by decide, by decide, by decide, rfl, by decide⟩

/-- C12 (amended): when the order quantity is an exact multiple of a pack size `s` and
no larger pack size fits into the order, the plan for a valid call consists of packs
of size `s` only, namely `orderQty / s` of them. -/
theorem C12_exactly_divisible (orderQty : Int) (packSizes : List Int) (s : Int)
    (h : Valid orderQty packSizes) (hs : s ∈ packSizes) (hdvd : s ∣ orderQty)
    (hbig : ∀ p ∈ packSizes, s < p → orderQty < p) :
    ∃ sl, CalculatePacksToShip orderQty packSizes = .ok ([(s, orderQty / s)], sl) := by
  obtain ⟨hq0, hqm, hne, hl⟩ := h
  have hs0 := (hl s hs).1
  have e1 := greedyLoop_divisible hq0 hqm hs0 hdvd (sortDesc packSizes) (sortDesc_sorted _)
    (fun p hp => (hl p (mem_sortDesc.1 hp)).1) (mem_sortDesc.2 hs)
    (fun p hp => hbig p (mem_sortDesc.1 hp))
  have e2 : topUp (sortDesc packSizes) [(s, orderQty / s)] 0 = .ok [(s, orderQty / s)] := by
    simp [topUp]
  have hmul : orderQty / s * s = orderQty := Int.ediv_mul_cancel hdvd
  have hk : 1 ≤ orderQty / s := by
    have h0 : 0 ≤ orderQty / s := Int.ediv_nonneg (le_of_lt hq0) (le_of_lt hs0)
    rcases lt_or_eq_of_le h0 with h | h
    · omega
    · rw [← h, zero_mul] at hmul; omega
  have hone : orderQty / s * s ∈ sortAsc packSizes → orderQty / s = 1 := by
    intro hin
    rw [hmul] at hin
    have hq := mem_sortAsc.1 hin
    have hle : s ≤ orderQty := by
      have := mul_le_mul_of_nonneg_right hk (le_of_lt hs0)
      omega
    have hqs : orderQty = s := by
      by_contra hne1
      have := hbig orderQty hq (by omega)
      omega
    rw [hqs]
    exact Int.ediv_self (by omega)
  refine ⟨sortAsc packSizes, ?_⟩
  simp only [CalculatePacksToShip, e1, e2, sortAsc_sortDesc,
    redistribute_singleton _ hs0 hk (by rw [hmul]; exact hqm) hone]

/-- C12, witness: the order 1500 over the sizes 250, 500, 2000, where 500 is the largest
size that fits. -/
theorem C12_exactly_divisible_witness :
    Valid 1500 [250, 500, 2000] ∧ (500 : Int) ∈ [250, 500, 2000] ∧ (500 : Int) ∣ 1500 ∧
    (∀ p ∈ ([250, 500, 2000] : List Int), 500 < p → 1500 < p) ∧
    ∃ sl, CalculatePacksToShip 1500 [250, 500, 2000] = .ok ([(500, 1500 / 500)], sl) :=
  ⟨by decide, by decide, by decide, by decide,
    C12_exactly_divisible 1500 [250, 500, 2000] 500 (by decide) (by decide) (by decide)
      (by decide)⟩

/-! ### The sweep reads the live plan -/

theorem redistribute_eq_foldl (all : List Int) :
    ∀ (ps : List Int) (m : GoMap),
      redistribute all ps m = ps.foldl (redistributeStep all) m := by
  intro ps
  induction ps with
  | nil => intro m; rfl
  | cons p ps ih => intro m; simp only [redistribute, List.foldl_cons, ih]

/-- C16, as stated, fails: for the order 751 over the sizes 250, 500, 1000 the plan after
the top-up is two packs of 250 and one of 500; the sweep replaces the two packs of 250
by a second pack of 500 and then, in the same sweep, the two packs of 500 by one pack
of 1000, so the returned plan holds no pack of 500. -/
theorem C16_counterexample :
    Valid 751 [250, 500, 1000] ∧
    greedyLoop (sortDesc [250, 500, 1000]) [] 751 = .ok ([(250, 1), (500, 1)], 1) ∧
    topUp (sortDesc [250, 500, 1000]) [(250, 1), (500, 1)] 1 = .ok [(250, 2), (500, 1)] ∧
    redistributeStep [250, 500, 1000] [(250, 2), (500, 1)] 250 = [(500, 2)] ∧
    redistributeStep [250, 500, 1000] [(500, 2)] 500 = [(1000, 1)] ∧
    CalculatePacksToShip 751 [250, 500, 1000] = .ok ([(1000, 1)], [250, 500, 1000]) ∧
    GoMap.lookup [(1000, 1)] 500 = none :=
  ⟨by decide, rfl, rfl, rfl, rfl, rfl, rfl⟩

theorem redistribute_split (all : List Int) (pre : List Int) (p : Int) (rest : List Int) :
    ∀ (m : GoMap), redistribute all (pre ++ p :: rest) m
      = redistribute all rest (redistributeStep all (redistribute all pre m) p) := by
  induction pre with
  | nil => intro m; rfl
  | cons a pre ih =>
    intro m
    show redistribute all (a :: (pre ++ p :: rest)) m = _
    simp only [redistribute]
    exact ih _

theorem redistributeStep_get_ge {l all : List Int} (hl : AllPos l) (hall : ∀ x ∈ all, x ∈ l)
    {T : Int} (hT : T ≤ 2 * maxInt) {m : GoMap} (h : PInv l T m) {p k : Int} (hk : k ≠ p) :
    m.get k ≤ (redistributeStep all m p).get k := by
  rcases redistributeStep_cases hl hall hT h p with ⟨e, _⟩ | ⟨_, _, _, e⟩
  · rw [e]
  · rw [e, GoMap.get_set]
    split_ifs with hkn
    · rw [← hkn, GoMap.get_delete, if_neg hk]; omega
    · rw [GoMap.get_delete, if_neg hk]

theorem redistribute_get_ge {l all : List Int} (hl : AllPos l) (hall : ∀ x ∈ all, x ∈ l)
    {T : Int} (hT : T ≤ 2 * maxInt) {k : Int} :
    ∀ (mid : List Int) (m : GoMap), PInv l T m → k ∉ mid →
      m.get k ≤ (redistribute all mid m).get k := by
  intro mid
  induction mid with
  | nil => intro m _ _; exact le_refl _
  | cons p mid ih =>
    intro m h hk
    have hkp : k ≠ p := fun e => hk (e ▸ List.mem_cons_self _ _)
    have hkm : k ∉ mid := fun e => hk (List.mem_cons_of_mem _ e)
    exact le_trans (redistributeStep_get_ge hl hall hT h hkp)
      (ih _ (redistributeStep_spec hl hall hT h p) hkm)

/-- C16 (amended): the consolidation pass is one sweep over the pack sizes in ascending
order in which every iteration reads and updates the current plan. When the iteration
for a size `p` finds `c ≥ 2` packs of `p` in the current plan `cur`, with `N = c * p` one
of the pack sizes, it removes the entry of `p` and increments the count of `N`; the size
`N` is visited later in the same sweep, the count read at that visit includes the
increment, and the returned plan is the rest of the sweep continued from that visit. So
a count created or incremented by a merge can itself be merged in the same sweep: for
the order 751 over the sizes 250, 500, 1000 the returned plan is one pack of 1000. -/
theorem C16_live_sweep (orderQty : Int) (packSizes : List Int)
    (h : Valid orderQty packSizes) :
    (∃ m r m1 s, greedyLoop (sortDesc packSizes) [] orderQty = .ok (m, r) ∧
      topUp (sortDesc packSizes) m r = .ok m1 ∧ s.Sorted (· ≤ ·) ∧ s.Perm packSizes ∧
      CalculatePacksToShip orderQty packSizes = .ok (redistribute s s m1, s) ∧
      ∀ pre p rest cur N, s = pre ++ p :: rest → cur = redistribute s pre m1 →
        N = cur.get p * p → 2 ≤ cur.get p → N ∈ packSizes →
        (redistributeStep s cur p).lookup p = none ∧
        (redistributeStep s cur p).get N = cur.get N + 1 ∧
        ∃ mid post, rest = mid ++ N :: post ∧ N ∉ mid ∧
          cur.get N + 1 ≤ (redistribute s mid (redistributeStep s cur p)).get N ∧
          redistribute s s m1
            = redistribute s post
                (redistributeStep s (redistribute s mid (redistributeStep s cur p)) N)) ∧
    CalculatePacksToShip 751 [250, 500, 1000] = .ok ([(1000, 1)], [250, 500, 1000]) := by
  refine ⟨?_, rfl⟩
  obtain ⟨m, r, m1, _, e1, _, _, _, _, e2, hP, hT, e⟩ := CalculatePacksToShip_phases h
  have hl : AllPos packSizes := h.2.2.2
  have hall : ∀ x ∈ sortAsc packSizes, x ∈ packSizes := fun x hx => mem_sortAsc.1 hx
  refine ⟨m, r, m1, sortAsc packSizes, e1, e2, sortAsc_sorted _, sortAsc_perm _, e, ?_⟩
  intro pre p rest cur N hs hcur hN hc hNin
  have hPcur := redistribute_spec hl hall hT pre m1 hP
  rw [← hcur] at hPcur
  have hPnxt := redistributeStep_spec hl hall hT hPcur p
  have hsorted : (pre ++ p :: rest).Sorted (· ≤ ·) := hs ▸ sortAsc_sorted packSizes
  have hNs : N ∈ pre ++ p :: rest := hs ▸ mem_sortAsc.2 hNin
  rcases redistributeStep_cases hl hall hT hPcur p with ⟨_, hno⟩ | ⟨hpos, hpl, _, estep⟩
  · have hNall : N ∈ sortAsc packSizes := mem_sortAsc.2 hNin
    rw [hN] at hNall
    exact absurd hNall (hno (by omega))
  · have hp0 := (hl p hpl).1
    have hpN : p < N := by
      have := mul_le_mul_of_nonneg_right hc (le_of_lt hp0)
      omega
    have hNp : N ≠ p := by omega
    have hpN' : ¬ p = N := by omega
    rw [← hN] at estep
    have hget : (redistributeStep (sortAsc packSizes) cur p).get N = cur.get N + 1 := by
      rw [estep, GoMap.get_set, if_pos rfl, GoMap.get_delete, if_neg hNp]
    have hNrest : N ∈ rest := by
      rcases List.mem_append.1 hNs with hin | hin
      · have := (List.pairwise_append.1 hsorted).2.2 N hin p (List.mem_cons_self _ _)
        omega
      · rcases List.mem_cons.1 hin with hin | hin
        · exact absurd hin hNp
        · exact hin
    obtain ⟨mid, post, hrest, hmid⟩ := List.eq_append_cons_of_mem hNrest
    refine ⟨?_, hget, mid, post, hrest, hmid, ?_, ?_⟩
    · rw [estep, GoMap.lookup_set, if_neg hpN', GoMap.lookup_delete, if_pos rfl]
    · rw [← hget]
      exact redistribute_get_ge hl hall hT mid _ hPnxt hmid
    · have key : ∀ L, L = pre ++ p :: rest →
          redistribute (sortAsc packSizes) L m1
            = redistribute (sortAsc packSizes) rest
                (redistributeStep (sortAsc packSizes) cur p) := by
        intro L hL
        rw [hL, redistribute_split, ← hcur]
      rw [key _ hs, hrest, redistribute_split]

/-- C16, witness: the order 751 over the sizes 250, 500, 1000. -/
theorem C16_live_sweep_witness :
    Valid 751 [250, 500, 1000] ∧
    (∃ m r m1 s, greedyLoop (sortDesc [250, 500, 1000]) [] 751 = .ok (m, r) ∧
      topUp (sortDesc [250, 500, 1000]) m r = .ok m1 ∧ s.Sorted (· ≤ ·) ∧
      s.Perm [250, 500, 1000] ∧
      CalculatePacksToShip 751 [250, 500, 1000] = .ok (redistribute s s m1, s) ∧
      ∀ pre p rest cur N, s = pre ++ p :: rest → cur = redistribute s pre m1 →
        N = cur.get p * p → 2 ≤ cur.get p → N ∈ ([250, 500, 1000] : List Int) →
        (redistributeStep s cur p).lookup p = none ∧
        (redistributeStep s cur p).get N = cur.get N + 1 ∧
        ∃ mid post, rest = mid ++ N :: post ∧ N ∉ mid ∧
          cur.get N + 1 ≤ (redistribute s mid (redistributeStep s cur p)).get N ∧
          redistribute s s m1
            = redistribute s post
                (redistributeStep s (redistribute s mid (redistributeStep s cur p)) N)) ∧
    CalculatePacksToShip 751 [250, 500, 1000] = .ok ([(1000, 1)], [250, 500, 1000]) :=
  ⟨by decide, C16_live_sweep 751 [250, 500, 1000] (by decide)⟩

/-! ### Input validation -/

theorem Atoi_range {s : List Char} {n : Int} (h : Atoi s = some n) :
    -9223372036854775808 ≤ n ∧ n ≤ maxInt := by
  unfold Atoi at h
  simp only at h
  split_ifs at h
  all_goals
    split at h
    · exact Option.noConfusion h
    · split_ifs at h with h1
      all_goals
        simp only [Option.some.injEq] at h
        subst h
        exact h1

theorem Split_ne_nil (s : List Char) : Split s ≠ [] := by
  cases s with
  | nil => simp [Split]
  | cons c cs =>
    simp only [Split]
    split_ifs
    · simp
    · split <;> simp

theorem acceptedField_eq_true_iff (f : List Char) :
    acceptedField f = true ↔ ∃ n, Atoi f = some n ∧ 0 < n := by
  unfold acceptedField
  cases h : Atoi f with
  | none => simp
  | some n => simp

theorem acceptedField_eq_false_iff (f : List Char) :
    acceptedField f = false ↔ Atoi f = none ∨ ∃ n, Atoi f = some n ∧ n ≤ 0 := by
  unfold acceptedField
  cases h : Atoi f with
  | none => simp
  | some n => simp

theorem convertLoop_rejects (pre : List (List Char)) (f : List Char)
    (post : List (List Char)) (hpre : ∀ g ∈ pre, acceptedField g = true)
    (hbad : acceptedField f = false) :
    convertLoop (pre ++ f :: post)
      = .error (if Atoi f = none then ShipError.ErrPackSizesInvalidFormat
          else ShipError.ErrPackSizeInvalidValue) := by
  induction pre with
  | nil =>
    simp only [List.nil_append, convertLoop]
    unfold acceptedField at hbad
    cases h : Atoi f with
    | none => simp
    | some n =>
      rw [h] at hbad
      have hn : n ≤ 0 := by simpa using hbad
      simp [hn]
  | cons g pre ih =>
    have hg := hpre g (List.mem_cons_self _ _)
    obtain ⟨n, hn, hpos⟩ := (acceptedField_eq_true_iff g).1 hg
    have hn0 : ¬ n ≤ 0 := by omega
    have e := ih (fun x hx => hpre x (List.mem_cons_of_mem _ hx))
    show convertLoop (g :: (pre ++ f :: post)) = _
    unfold convertLoop
    rw [hn]
    simp only [hn0, if_false]
    rw [e]

theorem exists_first_rejected :
    ∀ (L : List (List Char)) (f : List Char), f ∈ L → acceptedField f = false →
      ∃ pre g post, L = pre ++ g :: post ∧ (∀ x ∈ pre, acceptedField x = true) ∧
        acceptedField g = false := by
  intro L
  induction L with
  | nil => intro f hf; simp at hf
  | cons a t ih =>
    intro f hf hbad
    by_cases ha : acceptedField a = true
    · have hft : f ∈ t := by
        rcases List.mem_cons.1 hf with h | h
        · rw [h, ha] at hbad; exact Bool.noConfusion hbad
        · exact h
      obtain ⟨pre, g, post, e, hpre, hg⟩ := ih f hft hbad
      refine ⟨a :: pre, g, post, by rw [e]; rfl, ?_, hg⟩
      intro x hx
      rcases List.mem_cons.1 hx with h | h
      · rw [h]; exact ha
      · exact hpre x h
    · exact ⟨[], a, t, rfl, by simp, by simpa using ha⟩

theorem convertLoop_accepts :
    ∀ (L : List (List Char)) (l : List Int), convertLoop L = .ok l →
      L.map Atoi = l.map some ∧ ∀ n ∈ l, 0 < n ∧ n ≤ maxInt := by
  intro L
  induction L with
  | nil =>
    intro l h
    simp only [convertLoop, Except.ok.injEq] at h
    subst h
    simp
  | cons f rest ih =>
    intro l h
    simp only [convertLoop] at h
    cases hf : Atoi f with
    | none => rw [hf] at h; exact Except.noConfusion h
    | some n =>
      rw [hf] at h
      simp only at h
      by_cases hn : n ≤ 0
      · simp only [hn, if_true] at h; exact Except.noConfusion h
      · simp only [hn, if_false] at h
        cases hr : convertLoop rest with
        | error e => rw [hr] at h; exact Except.noConfusion h
        | ok l1 =>
          rw [hr] at h
          simp only [Except.ok.injEq] at h
          subst h
          obtain ⟨h1, h2⟩ := ih l1 hr
          refine ⟨by simp [hf, h1], ?_⟩
          intro x hx
          rcases List.mem_cons.1 hx with h | h
          · rw [h]; exact ⟨by omega, (Atoi_range hf).2⟩
          · exact h2 x h

theorem Atoi_examples :
    Atoi "".toList = none ∧ Atoi "-".toList = none ∧ Atoi "+5".toList = some 5 ∧
    Atoi "-0".toList = some 0 ∧ Atoi "007".toList = some 7 ∧ Atoi " 5".toList = none ∧
    Atoi "1_0".toList = none ∧ Atoi "1.5".toList = none ∧
    Atoi "9223372036854775807".toList = some 9223372036854775807 ∧
    Atoi "9223372036854775808".toList = none ∧
    Atoi "-9223372036854775808".toList = some (-9223372036854775808) ∧
    Atoi "-9223372036854775809".toList = none := by
  decide

theorem Split_TrimSpace_examples :
    Split "".toList = [[]] ∧
    Split "a,,b,".toList = ["a".toList, [], "b".toList, []] ∧
    TrimSpace " \t250 \n".toList = "250".toList ∧
    TrimSpace "2 5".toList = "2 5".toList ∧
    packSizesStrList " 250 ,500" = ["250".toList, "500".toList] := by
  decide

/-- C13 (ExtractOrderQty classifies its input): a string that `strconv.Atoi` rejects
gives 0 and the format error; a string that parses to an integer `n ≤ 0` gives 0 and
the value error; a string that parses to `n > 0` gives `n` and no error; so a nil error
comes with a strictly positive result. The three rows of the test table are included. -/
theorem C13_order_qty_classified (s : String) :
    (Atoi s.toList = none →
      ExtractOrderQty s = (0, some ShipError.ErrOrderQtyInvalidFormat)) ∧
    (∀ n, Atoi s.toList = some n → n ≤ 0 →
      ExtractOrderQty s = (0, some ShipError.ErrOrderQtyInvalidValue)) ∧
    (∀ n, Atoi s.toList = some n → 0 < n → ExtractOrderQty s = (n, none)) ∧
    ((ExtractOrderQty s).2 = none → 0 < (ExtractOrderQty s).1) ∧
    ExtractOrderQty "XXX" = (0, some ShipError.ErrOrderQtyInvalidFormat) ∧
    ExtractOrderQty "-999" = (0, some ShipError.ErrOrderQtyInvalidValue) ∧
    ExtractOrderQty "999" = (999, none) := by
  refine ⟨?_, ?_, ?_, ?_, by decide, by decide, by decide⟩
  · intro h; unfold ExtractOrderQty; rw [h]
  · intro n h hn; unfold ExtractOrderQty; rw [h]; simp only [hn, if_true]
  · intro n h hn
    have : ¬ n ≤ 0 := by omega
    unfold ExtractOrderQty; rw [h]; simp only [this, if_false]
  · intro h
    unfold ExtractOrderQty at h ⊢
    cases ha : Atoi s.toList with
    | none => rw [ha] at h; simp at h
    | some n =>
      rw [ha] at h
      by_cases hn : n ≤ 0
      · simp [hn] at h
      · simp only [hn, if_false]; omega

/-- C14 (ExtractPackSizes rejects bad lists): when some trimmed field is not accepted
(it does not parse, or parses to an integer `≤ 0`), the call returns the nil slice and
an error decided by the first such field from the left: the format error when that field
does not parse, the value error otherwise. The empty string is rejected with the format
error. -/
theorem C14_pack_sizes_rejected (s : String) (f : List Char)
    (hf : f ∈ packSizesStrList s) (hbad : acceptedField f = false) :
    (ExtractPackSizes s).1 = none ∧
    (∃ pre g post, packSizesStrList s = pre ++ g :: post ∧
      (∀ x ∈ pre, acceptedField x = true) ∧ acceptedField g = false ∧
      (ExtractPackSizes s).2
        = some (if Atoi g = none then ShipError.ErrPackSizesInvalidFormat
            else ShipError.ErrPackSizeInvalidValue)) ∧
    ExtractPackSizes "" = (none, some ShipError.ErrPackSizesInvalidFormat) := by
  obtain ⟨pre, g, post, e, hpre, hg⟩ := exists_first_rejected _ f hf hbad
  have hc := convertLoop_rejects pre g post hpre hg
  rw [← e] at hc
  refine ⟨by simp [ExtractPackSizes, hc], ⟨pre, g, post, e, hpre, hg, ?_⟩, by decide⟩
  simp [ExtractPackSizes, hc]

/-- C14, witness: the input `1,2,3,-4` of the test table, whose last field is rejected. -/
theorem C14_pack_sizes_rejected_witness :
    "-4".toList ∈ packSizesStrList "1,2,3,-4" ∧ acceptedField "-4".toList = false ∧
    (ExtractPackSizes "1,2,3,-4").1 = none ∧
    (∃ pre g post, packSizesStrList "1,2,3,-4" = pre ++ g :: post ∧
      (∀ x ∈ pre, acceptedField x = true) ∧ acceptedField g = false ∧
      (ExtractPackSizes "1,2,3,-4").2
        = some (if Atoi g = none then ShipError.ErrPackSizesInvalidFormat
            else ShipError.ErrPackSizeInvalidValue)) ∧
    ExtractPackSizes "" = (none, some ShipError.ErrPackSizesInvalidFormat) :=
  ⟨by decide, by decide,
    C14_pack_sizes_rejected "1,2,3,-4" "-4".toList (by decide) (by decide)⟩

/-- C15 (ExtractPackSizes establishes the allocator's precondition): when the call
returns no error, the returned slice has one element per trimmed field, in the same
order, each the integer the field parses to; it is non-empty, its elements are strictly
positive, and with any strictly positive order quantity it satisfies `Valid`. -/
theorem C15_pack_sizes_accepted (s : String) (h : (ExtractPackSizes s).2 = none) :
    ∃ l, ExtractPackSizes s = (some l, none) ∧
      (packSizesStrList s).map Atoi = l.map some ∧
      l.length = (packSizesStrList s).length ∧ l ≠ [] ∧ (∀ n ∈ l, 0 < n) ∧
      ∀ q, 0 < q → q ≤ maxInt → Valid q l := by
  unfold ExtractPackSizes at h ⊢
  cases hc : convertLoop (packSizesStrList s) with
  | error e => rw [hc] at h; simp at h
  | ok l =>
    obtain ⟨h1, h2⟩ := convertLoop_accepts _ l hc
    have hlen : l.length = (packSizesStrList s).length := by
      have := congrArg List.length h1
      simpa using this.symm
    have hne : l ≠ [] := by
      intro hl
      rw [hl] at hlen
      have : packSizesStrList s = [] := List.length_eq_zero.1 hlen.symm
      unfold packSizesStrList at this
      exact Split_ne_nil _ (List.map_eq_nil_iff.1 this)
    exact ⟨l, rfl, h1, hlen, hne, fun n hn => (h2 n hn).1,
      fun q hq0 hqm => ⟨hq0, hqm, hne, h2⟩⟩

/-- C15, witness: the input `1,2,3,4` of the test table. -/
theorem C15_pack_sizes_accepted_witness :
    (ExtractPackSizes "1,2,3,4").2 = none ∧
    ∃ l, ExtractPackSizes "1,2,3,4" = (some l, none) ∧
      (packSizesStrList "1,2,3,4").map Atoi = l.map some ∧
      l.length = (packSizesStrList "1,2,3,4").length ∧ l ≠ [] ∧ (∀ n ∈ l, 0 < n) ∧
      ∀ q, 0 < q → q ≤ maxInt → Valid q l :=
  ⟨by decide, C15_pack_sizes_accepted "1,2,3,4" (by decide)⟩

end Ship
